import Mathlib

/-!
Verification of the wordChain program (src/wordChain.py).

The program builds an adjacency graph over a vocabulary of words, where two
words are connected when they have equal length and differ in exactly one
character position, and then finds shortest transformation paths between two
words by breadth-first search.

Embedding conventions:
* A Python string (word) is a `List Char`.
* A Python `set` of words is a `Finset Word`; iteration order over a set is
  unspecified in Python, so wherever the program iterates over a set we
  quantify over every duplicate-free list enumerating that set.
* A Python `dict` is modelled by its lookup function together with its key
  set; a lookup that raises `KeyError` is modelled explicitly.
* `find_word_chain`'s BFS loop is given explicit fuel; exhausting the fuel is
  a modelling artifact (constructor `BfsResult.timeout`) that the theorems
  prove unreachable for the fuel chosen in `find_word_chain`.
-/

/-- Words are immutable sequences of characters (`str` in the source). -/
abbrev Word := List Char

/-- `word[:pos] + char + word[pos+1:]` from `get_close_words`: the candidate
word obtained by substituting character `c` at position `pos`.  `List.take`
and `List.drop` clamp exactly like Python slicing does. -/
def subst (word : Word) (pos : Nat) (c : Char) : Word :=
  word.take pos ++ c :: word.drop (pos + 1)

/-- Number of positions at which two words differ (compared position by
position over the common length).  This is the measure the specification's
phrase "differ in exactly one character position" refers to. -/
def diffCount : Word → Word → Nat
  | [], _ => 0
  | _ :: _, [] => 0
  | a :: as, b :: bs => (if a = b then 0 else 1) + diffCount as bs

/-- `get_close_words(word, all_words, all_chars)` from the source: the set of
words in `all_words` obtained from `word` by substituting some character of
`all_chars` at some position, excluding `word` itself.

Source loop: for `pos` in `range(len(word))`, for `char` in `all_chars`,
`test_word = prefix + char + suffix`; keep it when
`test_word != word and test_word in all_words`. -/
def get_close_words (word : Word) (all_words : Finset Word) (all_chars : Finset Char) :
    Finset Word :=
  ((Finset.range word.length ×ˢ all_chars).image fun pc => subst word pc.1 pc.2).filter
    fun t => t ≠ word ∧ t ∈ all_words

/-- `set(chain(*all_words))` from `make_word_graph`: every character used in
the vocabulary. -/
def alphabet (all_words : Finset Word) : Finset Char :=
  all_words.biUnion fun w => w.toFinset

/-- `make_word_graph_simple(all_words)` from the source, as the lookup
function of the produced dictionary: `{w: get_close_words(w, all_words,
all_chars) for w in all_words}`. `none` models a `KeyError`. -/
def make_word_graph_simple (all_words : Finset Word) : Word → Option (Finset Word) :=
  fun w =>
    if w ∈ all_words then some (get_close_words w all_words (alphabet all_words)) else none

/-- Lookup in a Python dict built from a list of key/value pairs inserted in
order (`dict(zip(keys, values))`): a later binding for the same key overwrites
an earlier one. -/
def dlookup : List (Word × Finset Word) → Word → Option (Finset Word)
  | [], _ => none
  | p :: rest, w =>
    match dlookup rest w with
    | some v => some v
    | none => if p.1 = w then some p.2 else none

/-- `make_word_graph(all_words)` from the source, as the lookup function of
the produced dictionary.  The source materialises `word_list =
list(all_words)` — an enumeration of the set in unspecified order — computes
`get_close_words` for each entry with `pool.starmap` (which preserves argument
order regardless of worker completion order), and returns
`dict(zip(word_list, word_sets))`.  The enumeration is passed explicitly as
`word_list`. -/
def make_word_graph (all_words : Finset Word) (word_list : List Word) :
    Word → Option (Finset Word) :=
  fun w =>
    dlookup
      (word_list.map fun x => (x, get_close_words x all_words (alphabet all_words))) w

/-! ### Embedding of `find_word_chain` (breadth-first search) -/

/-- Outcome of running `find_word_chain`.
* `noPath` — the source returns `None`;
* `found p` — the source returns the list `p`;
* `keyError` — a dictionary lookup `word_graph[word]` raised `KeyError`;
* `timeout` — modelling artifact: the explicit fuel of the loop ran out
  (proven unreachable for the fuel used by `find_word_chain`);
* `chaseFail` — modelling artifact: the path-reconstruction loop failed, i.e.
  it either hit a missing predecessor key or would not terminate (proven
  unreachable). -/
inductive BfsResult where
  | timeout : BfsResult
  | keyError : BfsResult
  | chaseFail : BfsResult
  | noPath : BfsResult
  | found : List Word → BfsResult
  deriving DecidableEq

/-- Lookup in the `predecessors` dict.  Keys are inserted at the front; every
key is inserted at most once (the source only writes
`predecessors[neighbor] = word` after checking `neighbor not in
predecessors`), so first match is the binding. -/
def plookup : List (Word × Word) → Word → Option Word
  | [], _ => none
  | p :: rest, w => if p.1 = w then some p.2 else plookup rest w

/-- The reconstruction loop of `find_word_chain`:
`result = [goal]; while result[-1] != initial: result.append(predecessors[result[-1]])`.
`chase preds initial fuel w` returns the list `[w, …, initial]` obtained by
following predecessor links from `w`, or `none` when a link is missing or the
fuel runs out (the source would raise `KeyError` or loop forever; both are
proven unreachable). -/
def chase (preds : List (Word × Word)) (initial : Word) : Nat → Word → Option (List Word)
  | 0, _ => none
  | fuel + 1, w =>
    if w = initial then some [w]
    else (plookup preds w).bind fun p => (chase preds initial fuel p).map fun l => w :: l

/-- The inner loop of `find_word_chain`:
`for neighbor in word_graph[word]: …` iterated over the neighbor list `L`.
A neighbor already in `predecessors` is skipped; otherwise it is appended to
the queue and recorded with predecessor `word`, and if it equals `goal` the
path is reconstructed and returned.  `Sum.inl` carries the updated queue and
predecessor map when the iteration finishes; `Sum.inr` is an early return. -/
def processNbrs (initial goal word : Word) :
    List Word → List Word → List (Word × Word) →
      (List Word × List (Word × Word)) ⊕ BfsResult
  | [], queue, preds => Sum.inl (queue, preds)
  | n :: rest, queue, preds =>
    if (plookup preds n).isSome then processNbrs initial goal word rest queue preds
    else
      if n = goal then
        match chase ((n, word) :: preds) initial (preds.length + 2) goal with
        | some c => Sum.inr (BfsResult.found c.reverse)
        | none => Sum.inr BfsResult.chaseFail
      else processNbrs initial goal word rest (queue ++ [n]) ((n, word) :: preds)

/-- The outer `while word_queue:` loop of `find_word_chain`.  `word_graph` is
split into its key set `keys` and the per-word neighbor list `nbrsL word`
(the iteration order of the Python set `word_graph[word]`); looking up a
dequeued word that is not a key raises `KeyError`.  The loop runs on explicit
fuel; `timeout` is proven unreachable for the fuel `find_word_chain`
supplies. -/
def bfsLoop (keys : Finset Word) (nbrsL : Word → List Word) (initial goal : Word) :
    Nat → List Word → List (Word × Word) → BfsResult
  | _, [], _ => BfsResult.noPath
  | 0, _ :: _, _ => BfsResult.timeout
  | fuel + 1, word :: rest, preds =>
    if word ∈ keys then
      match processNbrs initial goal word (nbrsL word) rest preds with
      | Sum.inl (queue', preds') => bfsLoop keys nbrsL initial goal fuel queue' preds'
      | Sum.inr r => r
    else BfsResult.keyError

/-- `find_word_chain(initial, goal, word_graph)` from the source.  The word
graph is passed as its key set and neighbor-list function.  The fuel
`keys.card + 1` bounds the number of loop iterations: every iteration pops
one queue entry, and at most `keys.card + 1` words are ever enqueued (the
start word plus one enqueue per fresh `predecessors` insertion, whose keys
are distinct members of `keys` whenever every neighbor list stays inside
`keys`). -/
def find_word_chain (initial goal : Word) (keys : Finset Word)
    (nbrsL : Word → List Word) : BfsResult :=
  if initial.length = goal.length then
    bfsLoop keys nbrsL initial goal (keys.card + 1) [initial] []
  else BfsResult.noPath

/-- Neighbor sets of the graph built from vocabulary `S` by
`make_word_graph` / `make_word_graph_simple`. -/
def nbrs (S : Finset Word) (w : Word) : Finset Word :=
  get_close_words w S (alphabet S)

/-- `nbrsL` enumerates, for every key of the graph built from `S`, that key's
neighbor set in some (unspecified) order: this is what iterating over the
Python set `word_graph[word]` provides.  Theorems about the search quantify
over all such enumerations. -/
def NbrLists (S : Finset Word) (nbrsL : Word → List Word) : Prop :=
  ∀ w ∈ S, (nbrsL w).Nodup ∧ (nbrsL w).toFinset = nbrs S w

/-- `v` is reachable from `u` in exactly `n` steps along graph edges. -/
def reachN (S : Finset Word) : Nat → Word → Word → Prop
  | 0, u, v => u = v
  | n + 1, u, v => ∃ w ∈ nbrs S u, reachN S n w v

/-- `m` is the breadth-first-search distance from `u` to `v`: `v` is
reachable in `m` steps and in no fewer. -/
def DistIs (S : Finset Word) (u v : Word) (m : Nat) : Prop :=
  reachN S m u v ∧ ∀ j < m, ¬ reachN S j u v

/-- `p` is a walk in the graph built from `S`: each entry is followed by one
of its neighbors. -/
def IsWordWalk (S : Finset Word) (p : List Word) : Prop :=
  List.Chain' (fun a b => b ∈ nbrs S a) p

/-- `p` is a walk from `initial` to `goal` in the graph built from `S`. -/
def Connects (S : Finset Word) (initial goal : Word) (p : List Word) : Prop :=
  IsWordWalk S p ∧ p.head? = some initial ∧ p.getLast? = some goal

/-! ### Predicates used by the loop analysis -/

/-- Every binding of the `predecessors` dict records a graph edge: the key
was discovered as a neighbor of its value. -/
def PredsWF (S : Finset Word) (P : List (Word × Word)) : Prop :=
  ∀ e ∈ P, e.1 ∈ nbrs S e.2

/-- `w` has been discovered by the BFS: it is the start word or a key of the
`predecessors` dict. -/
def Discovered (initial : Word) (P : List (Word × Word)) (w : Word) : Prop :=
  w = initial ∨ w ∈ P.map Prod.fst

/-! ### The BFS loop invariant -/

/-- Invariant of the `while word_queue:` loop for a search with start `i` and
goal `g` over the graph built from vocabulary `S`, while the goal has not yet
been discovered.  `k` is the BFS layer currently being processed: the queue
splits into a front segment of words at distance `k` and a back segment of
words at distance `k + 1` (the start word may additionally sit in the queue a
second time after being rediscovered as a neighbor — it is the only word the
source never marks as visited up front). -/
structure BfsInv (S : Finset Word) (i g : Word) (k : Nat)
    (q : List Word) (P : List (Word × Word)) : Prop where
  wf : PredsWF S P
  keysNodup : (P.map Prod.fst).Nodup
  qNodup : q.Nodup
  qDisc : ∀ w ∈ q, Discovered i P w
  strayKey : i ∈ q → i ∈ P.map Prod.fst
  layer : ∃ qa qb, q = qa ++ qb ∧
      (∀ x ∈ qa, x = i ∨ DistIs S i x k) ∧
      (∀ x ∈ qb, x = i ∨ DistIs S i x (k + 1))
  chains : ∀ x, Discovered i P x →
      ∃ c m, chase P i (P.length + 1) x = some c ∧ DistIs S i x m ∧ c.length = m + 1
  complete : ∀ x m, DistIs S i x m → m ≤ k → Discovered i P x
  processed : ∀ x, Discovered i P x → x ∉ q → ∀ y ∈ nbrs S x, Discovered i P y
  initNbrs : ∀ y ∈ nbrs S i, Discovered i P y
  goalFresh : ¬ Discovered i P g
  discVocab : ∀ x, Discovered i P x → x ∈ S

/-- Termination measure of the loop: queue length plus the number of
vocabulary words not yet recorded in `predecessors`.  Every iteration
strictly decreases it. -/
def bfsMeasure (S : Finset Word) (q : List Word) (P : List (Word × Word)) : Nat :=
  q.length + (S \ (P.map Prod.fst).toFinset).card


/-! ### Basic lemmas about `subst` and `diffCount` -/

theorem subst_length {word : Word} {pos : Nat} (c : Char) (h : pos < word.length) :
    (subst word pos c).length = word.length := by
  simp only [subst, List.length_append, List.length_take, List.length_cons,
    List.length_drop]
  omega

theorem subst_get_eq {word : Word} {pos : Nat} (c : Char) (h : pos < word.length) :
    ∀ hp : pos < (subst word pos c).length, (subst word pos c).get ⟨pos, hp⟩ = c := by
  intro hp
  simp only [subst, List.get_eq_getElem]
  rw [List.getElem_append_right]
  · simp [List.length_take, Nat.min_eq_left (Nat.le_of_lt h)]
  · simp [List.length_take]

theorem diffCount_comm : ∀ a b : Word, diffCount a b = diffCount b a := by
  intro a
  induction a with
  | nil => intro b; cases b <;> simp [diffCount]
  | cons x xs ih =>
    intro b
    cases b with
    | nil => simp [diffCount]
    | cons y ys =>
      simp only [diffCount, ih ys]
      by_cases hxy : x = y
      · simp [hxy]
      · have hyx : ¬y = x := fun h => hxy h.symm
        simp [hxy, hyx]

theorem diffCount_eq_zero {a b : Word} (hlen : a.length = b.length) :
    diffCount a b = 0 ↔ a = b := by
  induction a generalizing b with
  | nil =>
    cases b with
    | nil => simp [diffCount]
    | cons y ys => simp at hlen
  | cons x xs ih =>
    cases b with
    | nil => simp at hlen
    | cons y ys =>
      simp only [List.length_cons, Nat.succ.injEq] at hlen
      by_cases hxy : x = y
      · subst hxy
        simp [diffCount, ih hlen]
      · simp [diffCount, hxy]

theorem diffCount_self (a : Word) : diffCount a a = 0 :=
  (diffCount_eq_zero rfl).mpr rfl

theorem subst_get_self {word : Word} {pos : Nat} (h : pos < word.length) :
    subst word pos (word.get ⟨pos, h⟩) = word := by
  simp only [subst, List.get_eq_getElem]
  rw [List.getElem_cons_drop, List.take_append_drop]

theorem diffCount_subst {word : Word} {pos : Nat} {c : Char} (h : pos < word.length) :
    diffCount word (subst word pos c) =
      if word.get ⟨pos, h⟩ = c then 0 else 1 := by
  induction word generalizing pos with
  | nil => simp at h
  | cons x xs ih =>
    cases pos with
    | zero =>
      show diffCount (x :: xs) (c :: xs) = _
      simp [diffCount, diffCount_self]
    | succ pos =>
      have hp : pos < xs.length := by simpa using h
      show diffCount (x :: xs) (x :: subst xs pos c) = _
      simp [diffCount, ih hp]

theorem one_diff_subst {a b : Word} (hlen : a.length = b.length)
    (hd : diffCount a b = 1) :
    ∃ pos, ∃ ha : pos < a.length, ∃ hb : pos < b.length,
      b = subst a pos (b.get ⟨pos, hb⟩) ∧ a.get ⟨pos, ha⟩ ≠ b.get ⟨pos, hb⟩ := by
  induction a generalizing b with
  | nil =>
    cases b with
    | nil => simp [diffCount] at hd
    | cons y ys => simp at hlen
  | cons x xs ih =>
    cases b with
    | nil => simp at hlen
    | cons y ys =>
      simp only [List.length_cons, Nat.succ.injEq] at hlen
      by_cases hxy : x = y
      · subst hxy
        have hd' : diffCount xs ys = 1 := by simpa [diffCount] using hd
        obtain ⟨pos, ha, hb, hsub, hne⟩ := ih hlen hd'
        refine ⟨pos + 1, by simpa using ha, by simpa using hb, ?_, by simpa using hne⟩
        show x :: ys = subst (x :: xs) (pos + 1) _
        show x :: ys = x :: subst xs pos _
        exact congrArg (x :: ·) hsub
      · have hd' : diffCount xs ys = 0 := by
          simp only [diffCount, hxy, if_false] at hd
          omega
        have hxsys : xs = ys := (diffCount_eq_zero hlen).mp hd'
        subst hxsys
        refine ⟨0, by simp, by simp, ?_, by simpa using hxy⟩
        show y :: xs = subst (x :: xs) 0 y
        rfl

theorem mem_get_close_words {W X : Word} {S : Finset Word} {A : Finset Char} :
    X ∈ get_close_words W S A ↔
      (∃ pos, pos < W.length ∧ ∃ c ∈ A, subst W pos c = X) ∧ X ≠ W ∧ X ∈ S := by
  simp only [get_close_words, Finset.mem_filter, Finset.mem_image, Finset.mem_product,
    Finset.mem_range, Prod.exists]
  constructor
  · rintro ⟨⟨pos, c, ⟨hpos, hc⟩, hsub⟩, hne, hmem⟩
    exact ⟨⟨pos, hpos, c, hc, hsub⟩, hne, hmem⟩
  · rintro ⟨⟨pos, hpos, c, hc, hsub⟩, hne, hmem⟩
    exact ⟨⟨pos, c, ⟨hpos, hc⟩, hsub⟩, hne, hmem⟩

theorem mem_alphabet {S : Finset Word} {w : Word} {c : Char} (hw : w ∈ S) (hc : c ∈ w) :
    c ∈ alphabet S :=
  Finset.mem_biUnion.mpr ⟨w, hw, List.mem_toFinset.mpr hc⟩

/-- Everything `get_close_words` returns lies in the vocabulary, has the same
length as the query word, differs from it in exactly one position, and is not
the query word itself. -/
theorem close_words_props {S : Finset Word} {A : Finset Char} {W X : Word}
    (h : X ∈ get_close_words W S A) :
    X ∈ S ∧ X.length = W.length ∧ diffCount W X = 1 ∧ X ≠ W := by
  obtain ⟨⟨pos, hpos, c, _, hsub⟩, hne, hmem⟩ := mem_get_close_words.mp h
  subst hsub
  refine ⟨hmem, subst_length c hpos, ?_, hne⟩
  rw [diffCount_subst hpos]
  split
  · rename_i hget
    exact absurd (hget ▸ subst_get_self hpos) (by simpa using hne)
  · rfl

/-- Characterization of neighbor sets built from the vocabulary's own
alphabet: for `X` in the vocabulary, `X` is a close word of `W` exactly when
the lengths agree and the words differ in exactly one position. -/
theorem close_words_iff {S : Finset Word} {W X : Word} (hX : X ∈ S) :
    X ∈ get_close_words W S (alphabet S) ↔
      X.length = W.length ∧ diffCount W X = 1 := by
  constructor
  · intro h
    exact ⟨(close_words_props h).2.1, (close_words_props h).2.2.1⟩
  · rintro ⟨hlen, hd⟩
    obtain ⟨pos, ha, hb, hsub, hne⟩ := one_diff_subst hlen.symm hd
    refine mem_get_close_words.mpr ⟨⟨pos, ha, X.get ⟨pos, hb⟩, ?_, hsub.symm⟩, ?_, hX⟩
    · exact mem_alphabet hX (X.get_mem _ hb)
    · intro hXW
      rw [hXW, diffCount_self] at hd
      exact absurd hd (by simp)

/-! ### Neighbor-set and dictionary lemmas -/

theorem nbrs_subset_vocab (S : Finset Word) (w : Word) : nbrs S w ⊆ S :=
  fun _ hx => (close_words_props hx).1

theorem nbrs_irrefl (S : Finset Word) (w : Word) : w ∉ nbrs S w :=
  fun h => (close_words_props h).2.2.2 rfl

theorem mem_nbrs_iff {S : Finset Word} {W X : Word} (hX : X ∈ S) :
    X ∈ nbrs S W ↔ X.length = W.length ∧ diffCount W X = 1 :=
  close_words_iff hX

theorem dlookup_map_eq (S : Finset Word) (l : List Word) (w : Word) :
    dlookup (l.map fun x => (x, get_close_words x S (alphabet S))) w =
      if w ∈ l then some (get_close_words w S (alphabet S)) else none := by
  induction l with
  | nil => simp [dlookup]
  | cons x rest ih =>
    show dlookup ((x, _) :: _) w = _
    rw [dlookup, ih]
    by_cases hw : w ∈ rest
    · simp [hw]
    · by_cases hxw : x = w
      · subst hxw
        simp [hw]
      · have hwx : ¬w = x := fun h => hxw h.symm
        have : ¬w ∈ x :: rest := by simp [hw, hwx]
        simp [hw, hxw, this]

/-! ### Claim theorems about graph construction -/

/-- Claim C1: `make_word_graph_simple` (the mapping `make_word_graph` also
produces) has exactly the vocabulary as its key set, and for words `W`, `X`
of the vocabulary, `X` is a neighbor of `W` exactly when the lengths agree
and the words differ in exactly one character position; a word with no such
`X` maps to the empty set. -/
theorem make_word_graph_simple_spec (S : Finset Word) (W X : Word)
    (hW : W ∈ S) (hX : X ∈ S) :
    (∀ w, (make_word_graph_simple S w).isSome ↔ w ∈ S) ∧
    make_word_graph_simple S W = some (nbrs S W) ∧
    (X ∈ nbrs S W ↔ X.length = W.length ∧ diffCount W X = 1) ∧
    ((∀ Y ∈ S, ¬(Y.length = W.length ∧ diffCount W Y = 1)) →
      make_word_graph_simple S W = some ∅) := by
  refine ⟨?_, ?_, mem_nbrs_iff hX, ?_⟩
  · intro w
    by_cases hw : w ∈ S <;> simp [make_word_graph_simple, hw]
  · simp [make_word_graph_simple, hW, nbrs]
  · intro hnone
    have hempty : nbrs S W = ∅ := by
      ext Y
      simp only [Finset.not_mem_empty, iff_false]
      intro hY
      exact hnone Y (nbrs_subset_vocab S W hY) ((mem_nbrs_iff (nbrs_subset_vocab S W hY)).mp hY)
    simp [make_word_graph_simple, hW, ← hempty, nbrs]

theorem make_word_graph_simple_spec_witness :
    (['a'] : Word) ∈ ({['a'], ['b']} : Finset Word) ∧
    (['b'] : Word) ∈ ({['a'], ['b']} : Finset Word) ∧
    ((∀ w, (make_word_graph_simple {['a'], ['b']} w).isSome ↔
        w ∈ ({['a'], ['b']} : Finset Word)) ∧
      make_word_graph_simple {['a'], ['b']} ['a'] = some (nbrs {['a'], ['b']} ['a']) ∧
      ((['b'] : Word) ∈ nbrs {['a'], ['b']} ['a'] ↔
        (['b'] : Word).length = (['a'] : Word).length ∧ diffCount ['a'] ['b'] = 1) ∧
      ((∀ Y ∈ ({['a'], ['b']} : Finset Word),
          ¬(Y.length = (['a'] : Word).length ∧ diffCount ['a'] Y = 1)) →
        make_word_graph_simple {['a'], ['b']} ['a'] = some ∅)) :=
  ⟨by decide, by decide,
    make_word_graph_simple_spec {['a'], ['b']} ['a'] ['b'] (by decide) (by decide)⟩

theorem nbrs_symm {S : Finset Word} {A B : Word} (hA : A ∈ S) (hB : B ∈ S) :
    B ∈ nbrs S A ↔ A ∈ nbrs S B := by
  rw [mem_nbrs_iff hB, mem_nbrs_iff hA, diffCount_comm]
  constructor
  · rintro ⟨hl, hd⟩; exact ⟨hl.symm, hd⟩
  · rintro ⟨hl, hd⟩; exact ⟨hl.symm, hd⟩

/-- Claim C8: the neighbor relation of the constructed graph is symmetric on
the vocabulary. -/
theorem word_graph_neighbor_symm (S : Finset Word) (A B : Word)
    (hA : A ∈ S) (hB : B ∈ S) :
    B ∈ nbrs S A ↔ A ∈ nbrs S B :=
  nbrs_symm hA hB

theorem word_graph_neighbor_symm_witness :
    (['a'] : Word) ∈ ({['a'], ['b']} : Finset Word) ∧
    (['b'] : Word) ∈ ({['a'], ['b']} : Finset Word) ∧
    ((['b'] : Word) ∈ nbrs {['a'], ['b']} ['a'] ↔
      (['a'] : Word) ∈ nbrs {['a'], ['b']} ['b']) :=
  ⟨by decide, by decide,
    word_graph_neighbor_symm {['a'], ['b']} ['a'] ['b'] (by decide) (by decide)⟩

/-- Claim C9: no word of the constructed graph is its own neighbor; the
`test_word != word` check in `get_close_words` excludes the substitution that
replaces a character by itself (in particular for length-1 words). -/
theorem word_graph_no_self_loop (S : Finset Word) (w : Word) (nb : Finset Word)
    (h : make_word_graph_simple S w = some nb) : w ∉ nb := by
  have hw : w ∈ S := by
    by_contra hw
    simp [make_word_graph_simple, hw] at h
  have : nb = nbrs S w := by
    simp [make_word_graph_simple, hw, nbrs] at h
    exact h.symm
  subst this
  exact nbrs_irrefl S w

theorem word_graph_no_self_loop_witness :
    make_word_graph_simple {['a'], ['b']} ['a'] = some {['b']} ∧
    (['a'] : Word) ∉ ({['b']} : Finset Word) :=
  ⟨by decide, word_graph_no_self_loop {['a'], ['b']} ['a'] {['b']} (by decide)⟩

/-- Claim C10: the dictionary produced by the parallel `make_word_graph`
agrees, as a mapping, with the sequential `make_word_graph_simple` for every
enumeration `word_list = list(all_words)` of the vocabulary, and hence does
not depend on the enumeration order; building twice yields the same mapping.
(`pool.starmap` pairs results with arguments in argument order, independent
of worker completion order; this is reflected in the definition of
`make_word_graph`.) -/
theorem make_word_graph_eq_simple (S : Finset Word) (l1 l2 : List Word)
    (h1 : l1.toFinset = S) (h2 : l2.toFinset = S) :
    (∀ w, make_word_graph S l1 w = make_word_graph_simple S w) ∧
    (∀ w, make_word_graph S l1 w = make_word_graph S l2 w) := by
  have hmem : ∀ (l : List Word), l.toFinset = S → ∀ w,
      make_word_graph S l w = make_word_graph_simple S w := by
    intro l hl w
    rw [make_word_graph, dlookup_map_eq, make_word_graph_simple]
    by_cases hw : w ∈ S
    · have : w ∈ l := by rw [← List.mem_toFinset, hl]; exact hw
      simp [hw, this]
    · have : w ∉ l := by rw [← List.mem_toFinset, hl]; exact hw
      simp [hw, this]
  exact ⟨hmem l1 h1, fun w => by rw [hmem l1 h1 w, hmem l2 h2 w]⟩

theorem make_word_graph_eq_simple_witness :
    ([['a'], ['b']] : List Word).toFinset = ({['a'], ['b']} : Finset Word) ∧
    ([['b'], ['a']] : List Word).toFinset = ({['a'], ['b']} : Finset Word) ∧
    ((∀ w, make_word_graph {['a'], ['b']} [['a'], ['b']] w =
        make_word_graph_simple {['a'], ['b']} w) ∧
      (∀ w, make_word_graph {['a'], ['b']} [['a'], ['b']] w =
        make_word_graph {['a'], ['b']} [['b'], ['a']] w)) :=
  ⟨by decide, by decide,
    make_word_graph_eq_simple {['a'], ['b']} [['a'], ['b']] [['b'], ['a']]
      (by decide) (by decide)⟩

/-! ### Claim theorems about the search that need no loop analysis -/

/-- Claim C7: when the two words have different lengths, `find_word_chain`
returns `None` immediately, whatever the graph contains. -/
theorem find_word_chain_length_mismatch (initial goal : Word) (keys : Finset Word)
    (nbrsL : Word → List Word) (h : initial.length ≠ goal.length) :
    find_word_chain initial goal keys nbrsL = BfsResult.noPath := by
  simp [find_word_chain, h]

theorem find_word_chain_length_mismatch_witness :
    (['c', 'a', 't'] : Word).length ≠ (['c', 'a', 't', 's'] : Word).length ∧
    find_word_chain ['c', 'a', 't'] ['c', 'a', 't', 's'] {['c', 'a', 't']}
      (fun _ => []) = BfsResult.noPath :=
  ⟨by decide,
    find_word_chain_length_mismatch ['c', 'a', 't'] ['c', 'a', 't', 's']
      {['c', 'a', 't']} (fun _ => []) (by decide)⟩

/-- Claim C4 (amended): the empty vocabulary yields the empty mapping, and a
search over the empty graph returns `None` when the word lengths differ but
raises `KeyError` when they agree, because the BFS immediately looks up
`word_graph[initial]` in the empty dict. -/
theorem empty_vocab_behavior (nbrsL : Word → List Word) (initial goal : Word) :
    (∀ w, make_word_graph_simple ∅ w = none) ∧
    find_word_chain initial goal ∅ nbrsL =
      (if initial.length = goal.length then BfsResult.keyError else BfsResult.noPath) := by
  constructor
  · intro w
    simp [make_word_graph_simple]
  · by_cases h : initial.length = goal.length
    · simp only [find_word_chain, h, if_true, Finset.card_empty]
      rfl
    · simp [find_word_chain, h]

/-- Claim C4 counterexample: over the empty graph, an equal-length query does
not return the "no path" result — it raises `KeyError`. -/
theorem empty_graph_query_raises :
    find_word_chain ['a'] ['b'] ∅ (fun _ => []) = BfsResult.keyError ∧
    find_word_chain ['a'] ['b'] ∅ (fun _ => []) ≠ BfsResult.noPath := by
  constructor <;> decide

/-- Claim C3 counterexample: with vocabulary `{"a"}` and the initial word
`"b"` absent from the graph, the equal-length query raises `KeyError`
(`word_graph["b"]` on the first iteration) instead of returning `None`. -/
theorem find_word_chain_absent_initial_raises :
    find_word_chain ['b'] ['a'] {['a']} (fun _ => []) = BfsResult.keyError ∧
    find_word_chain ['b'] ['a'] {['a']} (fun _ => []) ≠ BfsResult.noPath := by
  constructor <;> decide

/-- Claim C5 counterexample: with vocabulary `{"a", "b"}` (where `"a"` has a
neighbor), searching from `"a"` to itself returns the single-element path
`["a"]`, not the "no path" result: BFS rediscovers the start as a neighbor of
its neighbor and the goal test fires. -/
theorem find_word_chain_same_word_returns_single :
    find_word_chain ['a'] ['a'] {['a'], ['b']}
      (fun w => if w = ['a'] then [['b']] else if w = ['b'] then [['a']] else []) =
      BfsResult.found [['a']] ∧
    find_word_chain ['a'] ['a'] {['a'], ['b']}
      (fun w => if w = ['a'] then [['b']] else if w = ['b'] then [['a']] else []) ≠
      BfsResult.noPath := by
  constructor <;> decide

/-! ### Lemmas about `plookup` -/

theorem plookup_isSome_iff (P : List (Word × Word)) (w : Word) :
    (plookup P w).isSome ↔ w ∈ P.map Prod.fst := by
  induction P with
  | nil => simp [plookup]
  | cons e rest ih =>
    by_cases he : e.1 = w
    · simp [plookup, he]
    · have hwe : ¬w = e.1 := fun h => he h.symm
      simp [plookup, he, ih, hwe]

theorem plookup_mem {P : List (Word × Word)} {w v : Word}
    (h : plookup P w = some v) : (w, v) ∈ P := by
  induction P with
  | nil => simp [plookup] at h
  | cons e rest ih =>
    obtain ⟨e1, e2⟩ := e
    by_cases he : e1 = w
    · simp only [plookup, he, if_true, Option.some.injEq] at h
      subst he
      subst h
      exact List.mem_cons_self _ _
    · simp only [plookup, he, if_false] at h
      exact List.mem_cons_of_mem _ (ih h)

theorem plookup_append_of_not_mem {Q P : List (Word × Word)} {w : Word}
    (h : w ∉ Q.map Prod.fst) : plookup (Q ++ P) w = plookup P w := by
  induction Q with
  | nil => rfl
  | cons e rest ih =>
    simp only [List.map_cons, List.mem_cons, not_or] at h
    have he : ¬e.1 = w := fun hh => h.1 hh.symm
    simp only [List.cons_append, plookup, he, if_false]
    exact ih h.2

theorem plookup_mapconst_append {F : List Word} {P : List (Word × Word)} {x u : Word}
    (h : x ∈ F) :
    plookup ((F.map fun n => (n, u)) ++ P) x = some u := by
  induction F with
  | nil => simp at h
  | cons y rest ih =>
    by_cases hy : y = x
    · simp [plookup, hy]
    · have hx : x ∈ rest := by
        rcases List.mem_cons.mp h with h' | h'
        · exact absurd h'.symm hy
        · exact h'
      simp only [List.map_cons, List.cons_append, plookup, hy, if_false]
      exact ih hx

theorem plookup_revmap_append {F : List Word} {P : List (Word × Word)} {x u : Word}
    (h : x ∈ F) :
    plookup ((F.map fun n => (n, u)).reverse ++ P) x = some u := by
  rw [← List.map_reverse]
  exact plookup_mapconst_append (List.mem_reverse.mpr h)

/-! ### Lemmas about `chase` -/

theorem chase_spec {P : List (Word × Word)} {i : Word} :
    ∀ {f : Nat} {w : Word} {c : List Word}, chase P i f w = some c →
      c.head? = some w ∧ c.getLast? = some i ∧
        List.Chain' (fun a b => plookup P a = some b) c := by
  intro f
  induction f with
  | zero => intro w c h; simp [chase] at h
  | succ f ih =>
    intro w c h
    by_cases hwi : w = i
    · simp only [chase, hwi, if_true, Option.some.injEq] at h
      subst h
      subst hwi
      exact ⟨rfl, rfl, List.chain'_singleton w⟩
    · simp only [chase, hwi, if_false] at h
      cases hp : plookup P w with
      | none => rw [hp] at h; simp at h
      | some p =>
        rw [hp] at h
        simp only [Option.some_bind] at h
        cases hc : chase P i f p with
        | none => rw [hc] at h; simp at h
        | some l =>
          rw [hc] at h
          simp only [Option.map_some', Option.some.injEq] at h
          subst h
          obtain ⟨hh, hl, hch⟩ := ih hc
          refine ⟨rfl, ?_, ?_⟩
          · cases l with
            | nil => simp at hh
            | cons a t => simpa using hl
          · cases l with
            | nil => simp at hh
            | cons a t =>
              have ha : a = p := by simpa using hh
              subst ha
              exact List.chain'_cons.mpr ⟨hp, hch⟩

theorem chase_mono {P : List (Word × Word)} {i : Word} :
    ∀ {f f' : Nat} {w : Word} {c : List Word}, chase P i f w = some c → f ≤ f' →
      chase P i f' w = some c := by
  intro f
  induction f with
  | zero => intro f' w c h _; simp [chase] at h
  | succ f ih =>
    intro f' w c h hf
    obtain ⟨f'', rfl⟩ : ∃ f'', f' = f'' + 1 := ⟨f' - 1, by omega⟩
    by_cases hwi : w = i
    · simp only [chase, hwi, if_true] at h
      simp [chase, hwi, h]
    · simp only [chase, hwi, if_false] at h
      cases hp : plookup P w with
      | none => rw [hp] at h; simp at h
      | some p =>
        rw [hp] at h
        simp only [Option.some_bind] at h
        cases hc : chase P i f p with
        | none => rw [hc] at h; simp at h
        | some l =>
          rw [hc] at h
          have hstep : chase P i f'' p = some l := ih hc (by omega)
          simp only [chase, hwi, if_false, hp, Option.some_bind, hstep]
          exact h

theorem chase_extend {Q P : List (Word × Word)} {i : Word}
    (hQ : ∀ k ∈ Q.map Prod.fst, plookup P k = none ∨ k = i) :
    ∀ {f : Nat} {w : Word} {c : List Word}, chase P i f w = some c →
      chase (Q ++ P) i f w = some c := by
  intro f
  induction f with
  | zero => intro w c h; simp [chase] at h
  | succ f ih =>
    intro w c h
    by_cases hwi : w = i
    · simp only [chase, hwi, if_true] at h
      simp [chase, hwi, h]
    · simp only [chase, hwi, if_false] at h
      cases hp : plookup P w with
      | none => rw [hp] at h; simp at h
      | some p =>
        rw [hp] at h
        simp only [Option.some_bind] at h
        cases hc : chase P i f p with
        | none => rw [hc] at h; simp at h
        | some l =>
          rw [hc] at h
          have hwQ : w ∉ Q.map Prod.fst := by
            intro hmem
            rcases hQ w hmem with h' | h'
            · rw [h'] at hp; exact Option.noConfusion hp
            · exact hwi h'
          simp only [chase, hwi, if_false, plookup_append_of_not_mem hwQ, hp,
            Option.some_bind, ih hc]
          exact h

/-! ### Unfolding equations for `processNbrs` and `bfsLoop` -/

theorem processNbrs_nil (i g w : Word) (q : List Word) (P : List (Word × Word)) :
    processNbrs i g w [] q P = Sum.inl (q, P) := rfl

theorem processNbrs_cons_skip {n : Word} {P : List (Word × Word)} (i g w : Word)
    (rest : List Word) (q : List Word) (h : (plookup P n).isSome) :
    processNbrs i g w (n :: rest) q P = processNbrs i g w rest q P := by
  simp [processNbrs, h]

theorem processNbrs_cons_goal_some {n : Word} {P : List (Word × Word)} {c : List Word}
    (i w : Word) (rest : List Word) (q : List Word) {g : Word}
    (h : plookup P n = none) (hg : n = g)
    (hc : chase ((n, w) :: P) i (P.length + 2) g = some c) :
    processNbrs i g w (n :: rest) q P = Sum.inr (BfsResult.found c.reverse) := by
  subst hg
  simp [processNbrs, h, hc]

theorem processNbrs_cons_goal_none {n : Word} {P : List (Word × Word)}
    (i w : Word) (rest : List Word) (q : List Word) {g : Word}
    (h : plookup P n = none) (hg : n = g)
    (hc : chase ((n, w) :: P) i (P.length + 2) g = none) :
    processNbrs i g w (n :: rest) q P = Sum.inr BfsResult.chaseFail := by
  subst hg
  simp [processNbrs, h, hc]

theorem processNbrs_cons_fresh {n : Word} {P : List (Word × Word)} (i w : Word)
    (rest : List Word) (q : List Word) {g : Word}
    (h : plookup P n = none) (hg : n ≠ g) :
    processNbrs i g w (n :: rest) q P =
      processNbrs i g w rest (q ++ [n]) ((n, w) :: P) := by
  simp [processNbrs, h, hg]

theorem bfsLoop_nil (K : Finset Word) (nbrsL : Word → List Word) (i g : Word)
    (fuel : Nat) (P : List (Word × Word)) :
    bfsLoop K nbrsL i g fuel [] P = BfsResult.noPath := by
  cases fuel <;> rfl

theorem bfsLoop_zero (K : Finset Word) (nbrsL : Word → List Word) (i g w : Word)
    (rest : List Word) (P : List (Word × Word)) :
    bfsLoop K nbrsL i g 0 (w :: rest) P = BfsResult.timeout := rfl

theorem bfsLoop_succ_notmem {K : Finset Word} {w : Word} (nbrsL : Word → List Word)
    (i g : Word) (fuel : Nat) (rest : List Word) (P : List (Word × Word))
    (h : w ∉ K) :
    bfsLoop K nbrsL i g (fuel + 1) (w :: rest) P = BfsResult.keyError := by
  simp [bfsLoop, h]

theorem bfsLoop_succ_inl {K : Finset Word} {nbrsL : Word → List Word} {i g w : Word}
    {rest q' : List Word} {P P' : List (Word × Word)} (fuel : Nat)
    (h : w ∈ K) (hp : processNbrs i g w (nbrsL w) rest P = Sum.inl (q', P')) :
    bfsLoop K nbrsL i g (fuel + 1) (w :: rest) P = bfsLoop K nbrsL i g fuel q' P' := by
  simp [bfsLoop, h, hp]

theorem bfsLoop_succ_inr {K : Finset Word} {nbrsL : Word → List Word} {i g w : Word}
    {rest : List Word} {P : List (Word × Word)} {r : BfsResult} (fuel : Nat)
    (h : w ∈ K) (hp : processNbrs i g w (nbrsL w) rest P = Sum.inr r) :
    bfsLoop K nbrsL i g (fuel + 1) (w :: rest) P = r := by
  simp [bfsLoop, h, hp]

/-! ### Soundness of a returned path -/

theorem NbrLists.mem_iff {S : Finset Word} {nbrsL : Word → List Word}
    (hn : NbrLists S nbrsL) {w : Word} (hw : w ∈ S) :
    ∀ x, x ∈ nbrsL w ↔ x ∈ nbrs S w := by
  intro x
  rw [← (hn w hw).2, List.mem_toFinset]

theorem processNbrs_inl_WF {S : Finset Word} {i g w : Word} :
    ∀ {L q P q' P'}, (∀ n ∈ L, n ∈ nbrs S w) → PredsWF S P →
      processNbrs i g w L q P = Sum.inl (q', P') → PredsWF S P' := by
  intro L
  induction L with
  | nil =>
    intro q P q' P' _ hwf h
    rw [processNbrs_nil] at h
    obtain ⟨rfl, rfl⟩ : q = q' ∧ P = P' := by
      constructor <;> [injection h with h'; injection h with h'] <;>
        simp_all
    exact hwf
  | cons n rest ih =>
    intro q P q' P' hL hwf h
    cases hp : plookup P n with
    | some v =>
      rw [processNbrs_cons_skip i g w rest q (by simp [hp])] at h
      exact ih (fun m hm => hL m (List.mem_cons_of_mem _ hm)) hwf h
    | none =>
      by_cases hg : n = g
      · cases hc : chase ((n, w) :: P) i (P.length + 2) g with
        | some c => rw [processNbrs_cons_goal_some i w rest q hp hg hc] at h; cases h
        | none => rw [processNbrs_cons_goal_none i w rest q hp hg hc] at h; cases h
      · rw [processNbrs_cons_fresh i w rest q hp hg] at h
        refine ih (fun m hm => hL m (List.mem_cons_of_mem _ hm)) ?_ h
        intro e he
        rcases List.mem_cons.mp he with rfl | he'
        · exact hL n (List.mem_cons_self _ _)
        · exact hwf e he'

theorem processNbrs_found_sound {S : Finset Word} {i g w : Word} :
    ∀ {L q P p}, (∀ n ∈ L, n ∈ nbrs S w) → PredsWF S P →
      processNbrs i g w L q P = Sum.inr (BfsResult.found p) →
      p.head? = some i ∧ p.getLast? = some g ∧
        List.Chain' (fun a b => b ∈ nbrs S a) p := by
  intro L
  induction L with
  | nil =>
    intro q P p _ _ h
    rw [processNbrs_nil] at h
    cases h
  | cons n rest ih =>
    intro q P p hL hwf h
    cases hp : plookup P n with
    | some v =>
      rw [processNbrs_cons_skip i g w rest q (by simp [hp])] at h
      exact ih (fun m hm => hL m (List.mem_cons_of_mem _ hm)) hwf h
    | none =>
      by_cases hg : n = g
      · cases hc : chase ((n, w) :: P) i (P.length + 2) g with
        | none => rw [processNbrs_cons_goal_none i w rest q hp hg hc] at h; cases h
        | some c =>
          rw [processNbrs_cons_goal_some i w rest q hp hg hc] at h
          obtain rfl : c.reverse = p := by simpa using h
          obtain ⟨hh, hl, hch⟩ := chase_spec hc
          have hwf' : PredsWF S ((n, w) :: P) := by
            intro e he
            rcases List.mem_cons.mp he with rfl | he'
            · exact hL n (List.mem_cons_self _ _)
            · exact hwf e he'
          refine ⟨?_, ?_, ?_⟩
          · rw [List.head?_reverse]; exact hl
          · rw [List.getLast?_reverse]; exact hh
          · rw [List.chain'_reverse]
            refine hch.imp ?_
            intro a b hab
            have : (a, b) ∈ (n, w) :: P := plookup_mem hab
            exact hwf' _ this
      · rw [processNbrs_cons_fresh i w rest q hp hg] at h
        refine ih (fun m hm => hL m (List.mem_cons_of_mem _ hm)) ?_ h
        intro e he
        rcases List.mem_cons.mp he with rfl | he'
        · exact hL n (List.mem_cons_self _ _)
        · exact hwf e he'

theorem bfsLoop_found_sound {S : Finset Word} {nbrsL : Word → List Word}
    (hn : NbrLists S nbrsL) {i g : Word} :
    ∀ fuel {q : List Word} {P : List (Word × Word)} {p : List Word}, PredsWF S P →
      bfsLoop S nbrsL i g fuel q P = BfsResult.found p →
      p.head? = some i ∧ p.getLast? = some g ∧
        List.Chain' (fun a b => b ∈ nbrs S a) p := by
  intro fuel
  induction fuel with
  | zero =>
    intro q P p _ h
    cases q with
    | nil => rw [bfsLoop_nil] at h; cases h
    | cons w rest => rw [bfsLoop_zero] at h; cases h
  | succ f ih =>
    intro q P p hwf h
    cases q with
    | nil => rw [bfsLoop_nil] at h; cases h
    | cons w rest =>
      by_cases hw : w ∈ S
      · have hL : ∀ n ∈ nbrsL w, n ∈ nbrs S w :=
          fun n hnw => (hn.mem_iff hw n).mp hnw
        cases hres : processNbrs i g w (nbrsL w) rest P with
        | inl pr =>
          obtain ⟨q', P'⟩ := pr
          rw [bfsLoop_succ_inl f hw hres] at h
          exact ih (processNbrs_inl_WF hL hwf hres) h
        | inr r =>
          rw [bfsLoop_succ_inr f hw hres] at h
          subst h
          exact processNbrs_found_sound hL hwf hres
      · rw [bfsLoop_succ_notmem nbrsL i g f rest P hw] at h
        cases h

/-- Claim C6: whenever `find_word_chain` returns a path over a graph produced
by `make_word_graph`, the path is non-empty, starts with `initial`, ends with
`goal`, and every pair of consecutive entries has equal length and differs in
exactly one character position. -/
theorem find_word_chain_path_valid (S : Finset Word) (nbrsL : Word → List Word)
    (initial goal : Word) (p : List Word) (hn : NbrLists S nbrsL)
    (h : find_word_chain initial goal S nbrsL = BfsResult.found p) :
    p ≠ [] ∧ p.head? = some initial ∧ p.getLast? = some goal ∧
      List.Chain' (fun a b => a.length = b.length ∧ diffCount a b = 1) p := by
  rw [find_word_chain] at h
  by_cases hlen : initial.length = goal.length
  · rw [if_pos hlen] at h
    obtain ⟨hh, hl, hch⟩ :=
      bfsLoop_found_sound hn (S.card + 1) (fun e he => absurd he (List.not_mem_nil e)) h
    refine ⟨fun hnil => by simp [hnil] at hh, hh, hl, ?_⟩
    refine hch.imp ?_
    intro a b hab
    obtain ⟨-, hlen', hd, -⟩ := close_words_props hab
    exact ⟨hlen'.symm, hd⟩
  · rw [if_neg hlen] at h
    cases h

theorem find_word_chain_path_valid_witness :
    NbrLists {['a'], ['b']}
      (fun w => if w = ['a'] then [['b']] else if w = ['b'] then [['a']] else []) ∧
    (([['a'], ['b']] : List Word) ≠ [] ∧
      ([['a'], ['b']] : List Word).head? = some ['a'] ∧
      ([['a'], ['b']] : List Word).getLast? = some ['b'] ∧
      List.Chain' (fun a b => a.length = b.length ∧ diffCount a b = 1)
        [['a'], ['b']]) := by
  constructor
  · unfold NbrLists
    decide
  · exact
      find_word_chain_path_valid {['a'], ['b']}
        (fun w => if w = ['a'] then [['b']] else if w = ['b'] then [['a']] else [])
        ['a'] ['b'] [['a'], ['b']] (by unfold NbrLists; decide) (by decide)

/-! ### Reachability and distance lemmas -/

theorem reachN_snoc {S : Finset Word} {x w : Word} :
    ∀ {n u}, reachN S n u w → x ∈ nbrs S w → reachN S (n + 1) u x := by
  intro n
  induction n with
  | zero =>
    intro u hr hx
    obtain rfl : u = w := hr
    exact ⟨x, hx, rfl⟩
  | succ n ih =>
    intro u hr hx
    obtain ⟨z, hz, hr'⟩ := hr
    exact ⟨z, hz, ih hr' hx⟩

theorem reachN_succ_back {S : Finset Word} {x : Word} :
    ∀ {n u}, reachN S (n + 1) u x → ∃ w, reachN S n u w ∧ x ∈ nbrs S w := by
  intro n
  induction n with
  | zero =>
    intro u hr
    obtain ⟨z, hz, hz0⟩ := hr
    obtain rfl : z = x := hz0
    exact ⟨u, rfl, hz⟩
  | succ n ih =>
    intro u hr
    obtain ⟨z, hz, hr'⟩ := hr
    obtain ⟨w, hw, hx⟩ := ih hr'
    exact ⟨w, ⟨z, hz, hw⟩, hx⟩

theorem exists_distIs {S : Finset Word} {u v : Word} :
    ∀ {n}, reachN S n u v → ∃ m, m ≤ n ∧ DistIs S u v m := by
  intro n
  induction n using Nat.strong_induction_on with
  | _ n ih =>
    intro hr
    by_cases h : ∀ j < n, ¬ reachN S j u v
    · exact ⟨n, Nat.le_refl n, hr, h⟩
    · push_neg at h
      obtain ⟨j, hj, hrj⟩ := h
      obtain ⟨m, hm, hd⟩ := ih j hj hrj
      exact ⟨m, by omega, hd⟩

theorem DistIs_unique {S : Finset Word} {u v : Word} {m m' : Nat}
    (h : DistIs S u v m) (h' : DistIs S u v m') : m = m' := by
  rcases Nat.lt_trichotomy m m' with hlt | heq | hgt
  · exact absurd h.1 (h'.2 m hlt)
  · exact heq
  · exact absurd h'.1 (h.2 m' hgt)

theorem distIs_self (S : Finset Word) (u : Word) : DistIs S u u 0 :=
  ⟨rfl, fun j hj => absurd hj (Nat.not_lt_zero j)⟩

theorem walk_reachN {S : Finset Word} {v : Word} :
    ∀ {p : List Word} {u}, IsWordWalk S p → p.head? = some u → p.getLast? = some v →
      reachN S (p.length - 1) u v := by
  intro p
  induction p with
  | nil => intro u _ hh _; cases hh
  | cons a t ih =>
    intro u hw hh hl
    obtain rfl : a = u := by simpa using hh
    cases t with
    | nil =>
      obtain rfl : a = v := by simpa using hl
      exact rfl
    | cons b t' =>
      rw [List.getLast?_cons_cons] at hl
      obtain ⟨hab, hw'⟩ := List.chain'_cons.mp hw
      have hr := ih hw' rfl hl
      show reachN S (t'.length + 1) a v
      exact ⟨b, hab, hr⟩

theorem reachN_walk {S : Finset Word} {v : Word} :
    ∀ {n u}, reachN S n u v →
      ∃ p, IsWordWalk S p ∧ p.head? = some u ∧ p.getLast? = some v ∧
        p.length = n + 1 := by
  intro n
  induction n with
  | zero =>
    intro u hr
    obtain rfl : u = v := hr
    exact ⟨[u], List.chain'_singleton u, rfl, rfl, rfl⟩
  | succ n ih =>
    intro u hr
    obtain ⟨z, hz, hr'⟩ := hr
    obtain ⟨p, hw, hh, hl, hlen⟩ := ih hr'
    cases p with
    | nil => cases hh
    | cons z' t =>
      obtain rfl : z' = z := by simpa using hh
      refine ⟨u :: z' :: t, ?_, rfl, ?_, by simpa using hlen⟩
      · exact List.chain'_cons.mpr ⟨hz, hw⟩
      · rw [List.getLast?_cons_cons]
        exact hl

/-! ### Explicit descriptions of one `processNbrs` run -/

theorem plookup_eq_none_iff (P : List (Word × Word)) (w : Word) :
    plookup P w = none ↔ w ∉ P.map Prod.fst := by
  rw [← plookup_isSome_iff]
  cases plookup P w <;> simp

theorem processNbrs_append_noGoal {i g w : Word} :
    ∀ {L1 : List Word} {L2 q : List Word} {P : List (Word × Word)},
      L1.Nodup → g ∉ L1 →
      processNbrs i g w (L1 ++ L2) q P =
        processNbrs i g w L2 (q ++ L1.filter fun n => (plookup P n).isNone)
          (((L1.filter fun n => (plookup P n).isNone).map fun n => (n, w)).reverse ++ P) := by
  intro L1
  induction L1 with
  | nil => intro L2 q P _ _; simp
  | cons n rest ih =>
    intro L2 q P hnd hg
    have hnrest : n ∉ rest := (List.nodup_cons.mp hnd).1
    have hndrest : rest.Nodup := (List.nodup_cons.mp hnd).2
    have hgrest : g ∉ rest := fun h => hg (List.mem_cons_of_mem _ h)
    have hng : n ≠ g := fun h => hg (h ▸ List.mem_cons_self _ _)
    cases hp : plookup P n with
    | some v =>
      rw [List.cons_append, processNbrs_cons_skip i g w (rest ++ L2) q (by simp [hp]),
        ih hndrest hgrest]
      have hfilter : (n :: rest).filter (fun m => (plookup P m).isNone) =
          rest.filter fun m => (plookup P m).isNone := by
        simp [List.filter_cons, hp]
      rw [hfilter]
    | none =>
      rw [List.cons_append, processNbrs_cons_fresh i w (rest ++ L2) q hp hng,
        ih hndrest hgrest]
      have hfilter2 : rest.filter (fun m => (plookup ((n, w) :: P) m).isNone) =
          rest.filter fun m => (plookup P m).isNone := by
        apply List.filter_congr
        intro m hm
        have hnm : ¬n = m := fun h => hnrest (h ▸ hm)
        simp [plookup, hnm]
      have hfilter1 : (n :: rest).filter (fun m => (plookup P m).isNone) =
          n :: rest.filter fun m => (plookup P m).isNone := by
        simp [List.filter_cons, hp]
      rw [hfilter2, hfilter1]
      have hq : q ++ [n] ++ (rest.filter fun m => (plookup P m).isNone) =
          q ++ n :: (rest.filter fun m => (plookup P m).isNone) := by
        simp
      have hP : ((rest.filter fun m => (plookup P m).isNone).map
            fun m => (m, w)).reverse ++ (n, w) :: P =
          (((n :: rest.filter fun m => (plookup P m).isNone).map
            fun m => (m, w)).reverse ++ P) := by
        simp
      rw [hq, hP]

theorem keys_revmap (F : List Word) (w : Word) :
    ((F.map fun n => (n, w)).reverse).map Prod.fst = F.reverse := by
  rw [← List.map_reverse, List.map_map]
  have : (Prod.fst ∘ fun n : Word => (n, w)) = fun n : Word => n := rfl
  rw [this, List.map_id']

theorem processNbrs_noGoal {i g w : Word} {L q : List Word} {P : List (Word × Word)}
    (hnd : L.Nodup) (hg : g ∉ L) :
    processNbrs i g w L q P = Sum.inl
      (q ++ L.filter fun n => (plookup P n).isNone,
        ((L.filter fun n => (plookup P n).isNone).map fun n => (n, w)).reverse ++ P) := by
  have h := @processNbrs_append_noGoal i g w L [] q P hnd hg
  rw [List.append_nil] at h
  rw [h, processNbrs_nil]

theorem processNbrs_found {i g w : Word} {L q : List Word} {P : List (Word × Word)}
    (hnd : L.Nodup) (hgL : g ∈ L) (hgP : plookup P g = none) :
    ∃ F : List Word, F.Nodup ∧
      (∀ x ∈ F, x ∈ L ∧ plookup P x = none ∧ x ≠ g) ∧
      (∀ c, chase ((g, w) :: ((F.map fun n => (n, w)).reverse ++ P)) i
            (((F.map fun n => (n, w)).reverse ++ P).length + 2) g = some c →
        processNbrs i g w L q P = Sum.inr (BfsResult.found c.reverse)) ∧
      (chase ((g, w) :: ((F.map fun n => (n, w)).reverse ++ P)) i
            (((F.map fun n => (n, w)).reverse ++ P).length + 2) g = none →
        processNbrs i g w L q P = Sum.inr BfsResult.chaseFail) := by
  obtain ⟨L1, L2, rfl⟩ := List.append_of_mem hgL
  obtain ⟨hnd1, hnd2, hdisj⟩ := List.nodup_append.mp hnd
  have hgL1 : g ∉ L1 := fun h => hdisj h (List.mem_cons_self _ _)
  have hgkeys : g ∉ (((L1.filter fun n => (plookup P n).isNone).map
      fun n => (n, w)).reverse).map Prod.fst := by
    rw [keys_revmap]
    intro hmem
    exact hgL1 (List.mem_of_mem_filter (List.mem_reverse.mp hmem))
  have hgmid : plookup
      (((L1.filter fun n => (plookup P n).isNone).map fun n => (n, w)).reverse ++ P) g =
      none := by
    rw [plookup_append_of_not_mem hgkeys]
    exact hgP
  refine ⟨L1.filter fun n => (plookup P n).isNone, hnd1.filter _, ?_, ?_, ?_⟩
  · intro x hx
    obtain ⟨hxL1, hxfresh⟩ := List.mem_filter.mp hx
    refine ⟨List.mem_append_left _ hxL1, by simpa using hxfresh,
      fun h => hgL1 (h ▸ hxL1)⟩
  · intro c hc
    rw [processNbrs_append_noGoal hnd1 hgL1]
    exact processNbrs_cons_goal_some i w L2 _ hgmid rfl hc
  · intro hc
    rw [processNbrs_append_noGoal hnd1 hgL1]
    exact processNbrs_cons_goal_none i w L2 _ hgmid rfl hc

theorem discovered_of_reach {S : Finset Word} {i : Word} {P : List (Word × Word)}
    (hcl : ∀ x, Discovered i P x → ∀ y ∈ nbrs S x, Discovered i P y) :
    ∀ {n x}, reachN S n i x → Discovered i P x := by
  intro n
  induction n with
  | zero =>
    intro x hr
    exact Or.inl hr.symm
  | succ n ih =>
    intro x hr
    obtain ⟨u, hu, hx⟩ := reachN_succ_back hr
    exact hcl u (ih hu) x hx

theorem BfsInv_complete_shift {S : Finset Word} {i g : Word} {k : Nat}
    {q : List Word} {P : List (Word × Word)} (inv : BfsInv S i g k q P)
    (hq : ∀ x ∈ q, x = i ∨ DistIs S i x (k + 1)) :
    ∀ x m, DistIs S i x m → m ≤ k + 1 → Discovered i P x := by
  intro x m hd hm
  rcases Nat.lt_or_ge m (k + 1) with hlt | hge
  · exact inv.complete x m hd (by omega)
  · have hmk : m = k + 1 := by omega
    subst hmk
    obtain ⟨u, hu, hx⟩ := reachN_succ_back hd.1
    obtain ⟨j, hj, hdu⟩ := exists_distIs hu
    have hud : Discovered i P u := inv.complete u j hdu hj
    by_cases huq : u ∈ q
    · rcases hq u huq with rfl | hdu'
      · exact inv.initNbrs x hx
      · have : j = k + 1 := DistIs_unique hdu hdu'
        omega
    · exact inv.processed u hud huq x hx

theorem BfsInv_shift {S : Finset Word} {i g : Word} {k : Nat}
    {q : List Word} {P : List (Word × Word)} (inv : BfsInv S i g k q P)
    (hq : ∀ x ∈ q, x = i ∨ DistIs S i x (k + 1)) : BfsInv S i g (k + 1) q P :=
  { inv with
    layer := ⟨q, [], (List.append_nil q).symm, hq,
      fun x hx => absurd hx (List.not_mem_nil x)⟩
    complete := BfsInv_complete_shift inv hq }

theorem BfsInv_start {S : Finset Word} {i g : Word} {L : List Word}
    (hiS : i ∈ S) (hne : i ≠ g) (hLnd : L.Nodup)
    (hLmem : ∀ x, x ∈ L ↔ x ∈ nbrs S i) (hgL : g ∉ nbrs S i) :
    BfsInv S i g 1 L ((L.map fun n => (n, i)).reverse) := by
  have hkeys : ((L.map fun n => (n, i)).reverse).map Prod.fst = L.reverse :=
    keys_revmap L i
  have hkeymem : ∀ x, x ∈ ((L.map fun n => (n, i)).reverse).map Prod.fst ↔ x ∈ L := by
    intro x
    rw [hkeys]
    exact List.mem_reverse
  have hentries : ∀ e ∈ (L.map fun n => (n, i)).reverse, ∃ n ∈ L, e = (n, i) := by
    intro e he
    rw [List.mem_reverse] at he
    obtain ⟨n, hn, rfl⟩ := List.mem_map.mp he
    exact ⟨n, hn, rfl⟩
  have hiL : i ∉ L := fun h => nbrs_irrefl S i ((hLmem i).mp h)
  have hdist1 : ∀ x ∈ L, DistIs S i x 1 := by
    intro x hx
    have hxn : x ∈ nbrs S i := (hLmem x).mp hx
    have hxi : x ≠ i := fun he => nbrs_irrefl S i (he ▸ hxn)
    refine ⟨⟨x, hxn, rfl⟩, ?_⟩
    intro j hj hr
    have hj0 : j = 0 := by omega
    subst hj0
    exact hxi hr.symm
  refine
    { wf := ?_, keysNodup := ?_, qNodup := hLnd, qDisc := ?_, strayKey := ?_,
      layer := ?_, chains := ?_, complete := ?_, processed := ?_, initNbrs := ?_,
      goalFresh := ?_, discVocab := ?_ }
  · intro e he
    obtain ⟨n, hn, rfl⟩ := hentries e he
    exact (hLmem n).mp hn
  · rw [hkeys]
    exact List.nodup_reverse.mpr hLnd
  · intro x hx
    exact Or.inr ((hkeymem x).mpr hx)
  · intro hi
    exact absurd hi hiL
  · exact ⟨L, [], (List.append_nil L).symm, fun x hx => Or.inr (hdist1 x hx),
      fun x hx => absurd hx (List.not_mem_nil x)⟩
  · intro x hx
    rcases hx with rfl | hxk
    · refine ⟨[x], 0, ?_, distIs_self S x, rfl⟩
      simp [chase]
    · have hxL : x ∈ L := (hkeymem x).mp hxk
      have hxn : x ∈ nbrs S i := (hLmem x).mp hxL
      have hxi : ¬x = i := fun he => nbrs_irrefl S i (he ▸ hxn)
      have hplk : plookup ((L.map fun n => (n, i)).reverse) x = some i := by
        have h := plookup_revmap_append (P := []) (u := i) hxL
        rwa [List.append_nil] at h
      obtain ⟨f', hf'⟩ : ∃ f', ((L.map fun n => (n, i)).reverse).length = f' + 1 :=
        ⟨((L.map fun n => (n, i)).reverse).length - 1, by
          have : 0 < L.length := List.length_pos.mpr (List.ne_nil_of_mem hxL)
          simp only [List.length_reverse, List.length_map]
          omega⟩
      refine ⟨[x, i], 1, ?_, hdist1 x hxL, rfl⟩
      rw [hf']
      simp [chase, hxi, hplk]
  · intro x m hd hm
    rcases Nat.lt_or_ge m 1 with h1 | h1
    · have : m = 0 := by omega
      subst this
      exact Or.inl hd.1.symm
    · have : m = 1 := by omega
      subst this
      obtain ⟨z, hz, h0⟩ := hd.1
      obtain rfl : z = x := h0
      exact Or.inr ((hkeymem z).mpr ((hLmem z).mpr hz))
  · intro x hx hxq
    rcases hx with rfl | hxk
    · intro y hy
      exact Or.inr ((hkeymem y).mpr ((hLmem y).mpr hy))
    · exact absurd ((hkeymem x).mp hxk) hxq
  · intro y hy
    exact Or.inr ((hkeymem y).mpr ((hLmem y).mpr hy))
  · intro hg
    rcases hg with rfl | hgk
    · exact hne rfl
    · exact hgL ((hLmem g).mp ((hkeymem g).mp hgk))
  · intro x hx
    rcases hx with rfl | hxk
    · exact hiS
    · exact nbrs_subset_vocab S i ((hLmem x).mp ((hkeymem x).mp hxk))

theorem chase_succ_ne {P : List (Word × Word)} {i w : Word} (hwi : ¬w = i) (f : Nat) :
    chase P i (f + 1) w =
      (plookup P w).bind fun p => (chase P i f p).map fun l => w :: l := by
  simp [chase, hwi]

theorem bfsMeasure_step {S : Finset Word} {w : Word} {rest q' F : List Word}
    {P : List (Word × Word)}
    (hq'len : q'.length = rest.length + F.length)
    (hFnd : F.Nodup) (hFS : ∀ x ∈ F, x ∈ S)
    (hFfresh : ∀ x ∈ F, x ∉ P.map Prod.fst) :
    bfsMeasure S q' ((F.map fun n => (n, w)).reverse ++ P) + 1 ≤
      bfsMeasure S (w :: rest) P := by
  have hkeys' : (((F.map fun n => (n, w)).reverse ++ P).map Prod.fst).toFinset =
      F.toFinset ∪ (P.map Prod.fst).toFinset := by
    rw [List.map_append, keys_revmap, List.toFinset_append, List.toFinset_reverse]
  have hsd : S \ (F.toFinset ∪ (P.map Prod.fst).toFinset) =
      (S \ (P.map Prod.fst).toFinset) \ F.toFinset := by
    ext x
    simp only [Finset.mem_sdiff, Finset.mem_union]
    tauto
  have hsub : F.toFinset ⊆ S \ (P.map Prod.fst).toFinset := by
    intro x hx
    rw [List.mem_toFinset] at hx
    exact Finset.mem_sdiff.mpr ⟨hFS x hx, fun hk => hFfresh x hx (List.mem_toFinset.mp hk)⟩
  have hcard : ((S \ (P.map Prod.fst).toFinset) \ F.toFinset).card =
      (S \ (P.map Prod.fst).toFinset).card - F.toFinset.card :=
    Finset.card_sdiff hsub
  have hle : F.toFinset.card ≤ (S \ (P.map Prod.fst).toFinset).card :=
    Finset.card_le_card hsub
  have hflen : F.toFinset.card = F.length := List.toFinset_card_of_nodup hFnd
  rw [bfsMeasure, bfsMeasure, hkeys', hsd, hcard, hflen, hq'len]
  simp only [List.length_cons]
  omega

theorem BfsInv_step {S : Finset Word} {i g w : Word} {k : Nat}
    {restA restB : List Word} {P : List (Word × Word)} {F : List Word}
    (hne : i ≠ g)
    (inv : BfsInv S i g k (w :: (restA ++ restB)) P)
    (hw : w = i ∨ DistIs S i w k)
    (hA : ∀ x ∈ restA, x = i ∨ DistIs S i x k)
    (hB : ∀ x ∈ restB, x = i ∨ DistIs S i x (k + 1))
    (hFnd : F.Nodup)
    (hFmem : ∀ x, x ∈ F ↔ x ∈ nbrs S w ∧ plookup P x = none)
    (hgN : g ∉ nbrs S w) :
    BfsInv S i g k (restA ++ (restB ++ F)) ((F.map fun n => (n, w)).reverse ++ P) := by
  have hkeys' : (((F.map fun n => (n, w)).reverse ++ P)).map Prod.fst =
      F.reverse ++ P.map Prod.fst := by
    rw [List.map_append, keys_revmap]
  have hkeymem' : ∀ x, x ∈ (((F.map fun n => (n, w)).reverse ++ P)).map Prod.fst ↔
      x ∈ F ∨ x ∈ P.map Prod.fst := by
    intro x
    rw [hkeys']
    simp only [List.mem_append, List.mem_reverse]
  have hdisc' : ∀ x, Discovered i ((F.map fun n => (n, w)).reverse ++ P) x ↔
      Discovered i P x ∨ x ∈ F := by
    intro x
    show (x = i ∨ _) ↔ (x = i ∨ _) ∨ x ∈ F
    rw [hkeymem' x]
    tauto
  have hFfresh : ∀ x ∈ F, x ∉ P.map Prod.fst := by
    intro x hx
    exact (plookup_eq_none_iff P x).mp ((hFmem x).mp hx).2
  have hFn : ∀ x ∈ F, x ∈ nbrs S w := fun x hx => ((hFmem x).mp hx).1
  have hwq : w ∈ w :: (restA ++ restB) := List.mem_cons_self _ _
  have hwD : Discovered i P w := inv.qDisc w hwq
  have hwS : w ∈ S := inv.discVocab w hwD
  have hwrest : w ∉ restA ++ restB := (List.nodup_cons.mp inv.qNodup).1
  have hrestnd : (restA ++ restB).Nodup := (List.nodup_cons.mp inv.qNodup).2
  have hFi : w = i → F = [] := by
    intro hwi
    subst hwi
    rw [List.eq_nil_iff_forall_not_mem]
    intro x hx
    have hxn : x ∈ nbrs S w := hFn x hx
    have hxd : Discovered w P x := inv.initNbrs x hxn
    rcases hxd with rfl | hxk
    · exact nbrs_irrefl S x hxn
    · exact hFfresh x hx hxk
  have hFdist : ∀ x ∈ F, x ≠ i → DistIs S i x (k + 1) := by
    intro x hx hxi
    have hwi : w ≠ i := by
      intro hwi
      rw [hFi hwi] at hx
      exact absurd hx (List.not_mem_nil x)
    have hdw : DistIs S i w k := hw.resolve_left hwi
    have hxnd : ¬ Discovered i P x := by
      intro hd
      rcases hd with rfl | hk
      · exact hxi rfl
      · exact hFfresh x hx hk
    have hreach : reachN S (k + 1) i x := reachN_snoc hdw.1 (hFn x hx)
    obtain ⟨m', hm', hdx⟩ := exists_distIs hreach
    have hmk : ¬ m' ≤ k := fun hle => hxnd (inv.complete x m' hdx hle)
    have : m' = k + 1 := by omega
    subst this
    exact hdx
  have hsubq' : ∀ x ∈ restA ++ restB, x ∈ restA ++ (restB ++ F) := by
    intro x hx
    rcases List.mem_append.mp hx with h | h
    · exact List.mem_append_left _ h
    · exact List.mem_append_right _ (List.mem_append_left _ h)
  have hFq' : ∀ x ∈ F, x ∈ restA ++ (restB ++ F) := by
    intro x hx
    exact List.mem_append_right _ (List.mem_append_right _ hx)
  have hPlen' : ((F.map fun n => (n, w)).reverse ++ P).length = P.length + F.length := by
    rw [List.length_append, List.length_reverse, List.length_map]
    omega
  refine
    { wf := ?_, keysNodup := ?_, qNodup := ?_, qDisc := ?_, strayKey := ?_,
      layer := ?_, chains := ?_, complete := ?_, processed := ?_, initNbrs := ?_,
      goalFresh := ?_, discVocab := ?_ }
  · intro e he
    rcases List.mem_append.mp he with h | h
    · rw [List.mem_reverse] at h
      obtain ⟨n, hn, rfl⟩ := List.mem_map.mp h
      exact hFn n hn
    · exact inv.wf e h
  · rw [hkeys']
    rw [List.nodup_append]
    exact ⟨List.nodup_reverse.mpr hFnd, inv.keysNodup,
      fun x hx hk => hFfresh x (List.mem_reverse.mp hx) hk⟩
  · rw [← List.append_assoc]
    rw [List.nodup_append]
    refine ⟨hrestnd, hFnd, ?_⟩
    intro x hx hxF
    have hxd : Discovered i P x := inv.qDisc x (List.mem_cons_of_mem _ hx)
    rcases hxd with rfl | hk
    · exact hFfresh x hxF (inv.strayKey (List.mem_cons_of_mem _ hx))
    · exact hFfresh x hxF hk
  · intro x hx
    rcases List.mem_append.mp hx with h | h
    · exact (hdisc' x).mpr (Or.inl (inv.qDisc x (List.mem_cons_of_mem _ (List.mem_append_left _ h))))
    · rcases List.mem_append.mp h with h' | h'
      · exact (hdisc' x).mpr (Or.inl (inv.qDisc x (List.mem_cons_of_mem _ (List.mem_append_right _ h'))))
      · exact (hdisc' x).mpr (Or.inr h')
  · intro hi
    rcases List.mem_append.mp hi with h | h
    · exact (hkeymem' i).mpr (Or.inr (inv.strayKey (List.mem_cons_of_mem _ (List.mem_append_left _ h))))
    · rcases List.mem_append.mp h with h' | h'
      · exact (hkeymem' i).mpr (Or.inr (inv.strayKey (List.mem_cons_of_mem _ (List.mem_append_right _ h'))))
      · exact (hkeymem' i).mpr (Or.inl h')
  · refine ⟨restA, restB ++ F, rfl, hA, ?_⟩
    intro x hx
    rcases List.mem_append.mp hx with h | h
    · exact hB x h
    · by_cases hxi : x = i
      · exact Or.inl hxi
      · exact Or.inr (hFdist x h hxi)
  · intro x hx
    rcases (hdisc' x).mp hx with hold | hxF
    · obtain ⟨c, m, hc, hd, hl⟩ := inv.chains x hold
      have hQ : ∀ kk ∈ ((F.map fun n => (n, w)).reverse).map Prod.fst,
          plookup P kk = none ∨ kk = i := by
        intro kk hkk
        rw [keys_revmap, List.mem_reverse] at hkk
        exact Or.inl ((hFmem kk).mp hkk).2
      have hext := chase_extend hQ hc
      exact ⟨c, m, chase_mono hext (by rw [hPlen']; omega), hd, hl⟩
    · by_cases hxi : x = i
      · subst hxi
        refine ⟨[x], 0, ?_, distIs_self S x, rfl⟩
        simp [chase]
      · have hdx := hFdist x hxF hxi
        have hwi : w ≠ i := by
          intro hwi
          rw [hFi hwi] at hxF
          exact absurd hxF (List.not_mem_nil x)
        have hdw : DistIs S i w k := hw.resolve_left hwi
        obtain ⟨cw, mw, hcw, hdw', hlw⟩ := inv.chains w hwD
        have hmwk : mw = k := DistIs_unique hdw' hdw
        have hQ : ∀ kk ∈ ((F.map fun n => (n, w)).reverse).map Prod.fst,
            plookup P kk = none ∨ kk = i := by
          intro kk hkk
          rw [keys_revmap, List.mem_reverse] at hkk
          exact Or.inl ((hFmem kk).mp hkk).2
        have hext := chase_extend hQ hcw
        have hFpos : 1 ≤ F.length := List.length_pos.mpr (List.ne_nil_of_mem hxF)
        have h2 : chase ((F.map fun n => (n, w)).reverse ++ P) i
            (((F.map fun n => (n, w)).reverse ++ P)).length w = some cw :=
          chase_mono hext (by rw [hPlen']; omega)
        have hplk : plookup ((F.map fun n => (n, w)).reverse ++ P) x = some w :=
          plookup_revmap_append hxF
        refine ⟨x :: cw, k + 1, ?_, hdx, by simp [hlw, hmwk]⟩
        rw [chase_succ_ne hxi, hplk, Option.some_bind, h2]
        rfl
  · intro x m hd hm
    exact (hdisc' x).mpr (Or.inl (inv.complete x m hd hm))
  · intro x hx hxq'
    rcases (hdisc' x).mp hx with hold | hxF
    · by_cases hxq : x ∈ w :: (restA ++ restB)
      · rcases List.mem_cons.mp hxq with rfl | hxrest
        · intro y hy
          by_cases hyfresh : plookup P y = none
          · exact (hdisc' y).mpr (Or.inr ((hFmem y).mpr ⟨hy, hyfresh⟩))
          · have hyk : y ∈ P.map Prod.fst := by
              rw [← plookup_isSome_iff]
              cases hpy : plookup P y with
              | none => exact absurd hpy hyfresh
              | some v => rfl
            exact (hdisc' y).mpr (Or.inl (Or.inr hyk))
        · exact absurd (hsubq' x hxrest) hxq'
      · intro y hy
        exact (hdisc' y).mpr (Or.inl (inv.processed x hold hxq y hy))
    · exact absurd (hFq' x hxF) hxq'
  · intro y hy
    exact (hdisc' y).mpr (Or.inl (inv.initNbrs y hy))
  · intro hg
    rcases (hdisc' g).mp hg with hold | hgF
    · exact inv.goalFresh hold
    · exact hgN (hFn g hgF)
  · intro x hx
    rcases (hdisc' x).mp hx with hold | hxF
    · exact inv.discVocab x hold
    · exact nbrs_subset_vocab S w (hFn x hxF)

theorem bfsLoop_correct {S : Finset Word} {nbrsL : Word → List Word}
    (hn : NbrLists S nbrsL) {i g : Word} (hne : i ≠ g) :
    ∀ fuel {k : Nat} {q : List Word} {P : List (Word × Word)},
      BfsInv S i g k q P → bfsMeasure S q P ≤ fuel →
      ((∀ n, ¬ reachN S n i g) → bfsLoop S nbrsL i g fuel q P = BfsResult.noPath) ∧
      (∀ m, DistIs S i g m →
        ∃ p, bfsLoop S nbrsL i g fuel q P = BfsResult.found p ∧ p.length = m + 1) := by
  intro fuel
  induction fuel with
  | zero =>
    intro k q P inv hμ
    have hq : q = [] := by
      cases q with
      | nil => rfl
      | cons a t =>
        exfalso
        rw [bfsMeasure] at hμ
        simp only [List.length_cons] at hμ
        omega
    subst hq
    constructor
    · intro _
      exact bfsLoop_nil S nbrsL i g 0 P
    · intro m hd
      exfalso
      have hcl : ∀ x, Discovered i P x → ∀ y ∈ nbrs S x, Discovered i P y :=
        fun x hx => inv.processed x hx (List.not_mem_nil x)
      exact inv.goalFresh (discovered_of_reach hcl hd.1)
  | succ f ih =>
    intro k q P inv hμ
    cases q with
    | nil =>
      constructor
      · intro _
        exact bfsLoop_nil S nbrsL i g (f + 1) P
      · intro m hd
        exfalso
        have hcl : ∀ x, Discovered i P x → ∀ y ∈ nbrs S x, Discovered i P y :=
          fun x hx => inv.processed x hx (List.not_mem_nil x)
        exact inv.goalFresh (discovered_of_reach hcl hd.1)
    | cons w rest =>
      obtain ⟨qa, qb, heq, hqa, hqb⟩ := inv.layer
      have hnorm : ∃ k' restA restB, BfsInv S i g k' (w :: rest) P ∧
          rest = restA ++ restB ∧ (w = i ∨ DistIs S i w k') ∧
          (∀ x ∈ restA, x = i ∨ DistIs S i x k') ∧
          (∀ x ∈ restB, x = i ∨ DistIs S i x (k' + 1)) := by
        cases qa with
        | nil =>
          rw [List.nil_append] at heq
          have hq' : ∀ x ∈ w :: rest, x = i ∨ DistIs S i x (k + 1) := by
            intro x hx
            exact hqb x (heq ▸ hx)
          exact ⟨k + 1, rest, [], BfsInv_shift inv hq', (List.append_nil rest).symm,
            hq' w (List.mem_cons_self _ _),
            fun x hx => hq' x (List.mem_cons_of_mem _ hx),
            fun x hx => absurd hx (List.not_mem_nil x)⟩
        | cons w' qa' =>
          rw [List.cons_append] at heq
          injection heq with h1 h2
          subst h1
          exact ⟨k, qa', qb, inv, h2, hqa w (List.mem_cons_self _ _),
            fun x hx => hqa x (List.mem_cons_of_mem _ hx), hqb⟩
      obtain ⟨k', restA, restB, invN, hrest, hwhead, hA, hB⟩ := hnorm
      subst hrest
      have hwS : w ∈ S := invN.discVocab w (invN.qDisc w (List.mem_cons_self _ _))
      have hLnd : (nbrsL w).Nodup := (hn w hwS).1
      have hLmem : ∀ x, x ∈ nbrsL w ↔ x ∈ nbrs S w := hn.mem_iff hwS
      by_cases hgN : g ∈ nbrs S w
      · -- the goal is a neighbor of the dequeued word: it is discovered now
        have hgL : g ∈ nbrsL w := (hLmem g).mpr hgN
        have hgP : plookup P g = none := by
          rw [plookup_eq_none_iff]
          intro hk
          exact invN.goalFresh (Or.inr hk)
        obtain ⟨F, hFnd, hFprops, hsome, _⟩ :=
          processNbrs_found (i := i) (q := restA ++ restB) hLnd hgL hgP
        have hwi : w ≠ i := by
          intro h
          subst h
          exact invN.goalFresh (invN.initNbrs g hgN)
        have hdw : DistIs S i w k' := hwhead.resolve_left hwi
        obtain ⟨cw, mw, hcw, hdw', hlw⟩ :=
          invN.chains w (invN.qDisc w (List.mem_cons_self _ _))
        have hmwk : mw = k' := DistIs_unique hdw' hdw
        have hQ : ∀ kk ∈ ((g, w) :: (F.map fun n => (n, w)).reverse).map Prod.fst,
            plookup P kk = none ∨ kk = i := by
          intro kk hkk
          rw [List.map_cons] at hkk
          rcases List.mem_cons.mp hkk with rfl | hkk'
          · exact Or.inl hgP
          · rw [keys_revmap, List.mem_reverse] at hkk'
            exact Or.inl ((hFprops kk hkk').2.1)
        have hext : chase ((g, w) :: ((F.map fun n => (n, w)).reverse ++ P)) i
            (P.length + 1) w = some cw :=
          chase_extend hQ hcw
        have hgi : ¬g = i := fun h => hne h.symm
        have hfin : chase ((g, w) :: ((F.map fun n => (n, w)).reverse ++ P)) i
            ((((F.map fun n => (n, w)).reverse ++ P)).length + 2) g = some (g :: cw) := by
          rw [show (((F.map fun n => (n, w)).reverse ++ P)).length + 2 =
              ((((F.map fun n => (n, w)).reverse ++ P)).length + 1) + 1 from rfl]
          rw [chase_succ_ne hgi]
          have hplg : plookup ((g, w) :: ((F.map fun n => (n, w)).reverse ++ P)) g =
              some w := by
            simp [plookup]
          rw [hplg, Option.some_bind]
          have hm : chase ((g, w) :: ((F.map fun n => (n, w)).reverse ++ P)) i
              ((((F.map fun n => (n, w)).reverse ++ P)).length + 1) w = some cw :=
            chase_mono hext
              (by rw [List.length_append, List.length_reverse, List.length_map]; omega)
          rw [hm]
          rfl
        have hres := hsome (g :: cw) hfin
        have hloop : bfsLoop S nbrsL i g (f + 1) (w :: (restA ++ restB)) P =
            BfsResult.found (g :: cw).reverse := bfsLoop_succ_inr f hwS hres
        have hreach : reachN S (k' + 1) i g := reachN_snoc hdw.1 hgN
        have hdg : DistIs S i g (k' + 1) := by
          refine ⟨hreach, ?_⟩
          intro j hj hrj
          obtain ⟨m', hm', hdg'⟩ := exists_distIs hrj
          exact invN.goalFresh (invN.complete g m' hdg' (by omega))
        constructor
        · intro hnr
          exact absurd hreach (hnr (k' + 1))
        · intro m hd
          have hmk : m = k' + 1 := DistIs_unique hd hdg
          refine ⟨(g :: cw).reverse, hloop, ?_⟩
          rw [List.length_reverse, List.length_cons, hlw, hmwk, hmk]
      · -- the goal is not a neighbor: one more layer of discoveries, then recurse
        have hgL : g ∉ nbrsL w := fun h => hgN ((hLmem g).mp h)
        have hres := processNbrs_noGoal (i := i) (w := w) (q := restA ++ restB) (P := P)
          hLnd hgL
        have hFnd : ((nbrsL w).filter fun n => (plookup P n).isNone).Nodup :=
          hLnd.filter _
        have hFmem : ∀ x, x ∈ ((nbrsL w).filter fun n => (plookup P n).isNone) ↔
            x ∈ nbrs S w ∧ plookup P x = none := by
          intro x
          rw [List.mem_filter]
          constructor
          · rintro ⟨hxL, hxf⟩
            exact ⟨(hLmem x).mp hxL, by simpa using hxf⟩
          · rintro ⟨hxn, hxf⟩
            exact ⟨(hLmem x).mpr hxn, by simp [hxf]⟩
        have hinv' := BfsInv_step hne invN hwhead hA hB hFnd hFmem hgN
        have hq'len : (restA ++ (restB ++
            ((nbrsL w).filter fun n => (plookup P n).isNone))).length =
            (restA ++ restB).length +
              ((nbrsL w).filter fun n => (plookup P n).isNone).length := by
          simp only [List.length_append]
          omega
        have hFS : ∀ x ∈ ((nbrsL w).filter fun n => (plookup P n).isNone), x ∈ S :=
          fun x hx => nbrs_subset_vocab S w ((hFmem x).mp hx).1
        have hFfresh : ∀ x ∈ ((nbrsL w).filter fun n => (plookup P n).isNone),
            x ∉ P.map Prod.fst :=
          fun x hx => (plookup_eq_none_iff P x).mp ((hFmem x).mp hx).2
        have hstep := bfsMeasure_step (S := S) (w := w) hq'len hFnd hFS hFfresh
        have hμ' : bfsMeasure S
            (restA ++ (restB ++ ((nbrsL w).filter fun n => (plookup P n).isNone)))
            ((((nbrsL w).filter fun n => (plookup P n).isNone).map
              fun n => (n, w)).reverse ++ P) ≤ f := by
          omega
        have hIH := ih hinv' hμ'
        constructor
        · intro hnr
          rw [bfsLoop_succ_inl f hwS hres, List.append_assoc]
          exact hIH.1 hnr
        · intro m hd
          obtain ⟨p, hp, hlen⟩ := hIH.2 m hd
          refine ⟨p, ?_, hlen⟩
          rw [bfsLoop_succ_inl f hwS hres, List.append_assoc]
          exact hp

theorem find_word_chain_correct {S : Finset Word} {nbrsL : Word → List Word}
    {i g : Word} (hn : NbrLists S nbrsL) (hne : i ≠ g) (hiS : i ∈ S)
    (hlen : i.length = g.length) :
    ((∀ n, ¬ reachN S n i g) → find_word_chain i g S nbrsL = BfsResult.noPath) ∧
    (∀ m, DistIs S i g m →
      ∃ p, find_word_chain i g S nbrsL = BfsResult.found p ∧ p.length = m + 1) := by
  rw [find_word_chain, if_pos hlen]
  have hLnd : (nbrsL i).Nodup := (hn i hiS).1
  have hLmem : ∀ x, x ∈ nbrsL i ↔ x ∈ nbrs S i := hn.mem_iff hiS
  have hgi : ¬g = i := fun h => hne h.symm
  by_cases hgN : g ∈ nbrs S i
  · have hgL : g ∈ nbrsL i := (hLmem g).mpr hgN
    obtain ⟨F, hFnd, hFprops, hsome, _⟩ :=
      processNbrs_found (i := i) (q := ([] : List Word))
        (P := ([] : List (Word × Word))) hLnd hgL rfl
    have hfin : chase ((g, i) :: ((F.map fun n => (n, i)).reverse ++
          ([] : List (Word × Word)))) i
        ((((F.map fun n => (n, i)).reverse ++ ([] : List (Word × Word)))).length + 2) g =
        some [g, i] := by
      rw [show (((F.map fun n => (n, i)).reverse ++
            ([] : List (Word × Word)))).length + 2 =
          ((((F.map fun n => (n, i)).reverse ++
            ([] : List (Word × Word)))).length + 1) + 1 from rfl]
      rw [chase_succ_ne hgi]
      have hplg : plookup ((g, i) :: ((F.map fun n => (n, i)).reverse ++
          ([] : List (Word × Word)))) g = some i := by
        simp [plookup]
      rw [hplg, Option.some_bind]
      have hstep : chase ((g, i) :: ((F.map fun n => (n, i)).reverse ++
          ([] : List (Word × Word)))) i
          ((((F.map fun n => (n, i)).reverse ++
            ([] : List (Word × Word)))).length + 1) i = some [i] := by
        simp [chase]
      rw [hstep]
      rfl
    have hres := hsome [g, i] hfin
    have hloop : bfsLoop S nbrsL i g (S.card + 1) [i] [] =
        BfsResult.found ([g, i].reverse) := bfsLoop_succ_inr S.card hiS hres
    have hreach1 : reachN S 1 i g := ⟨g, hgN, rfl⟩
    have hdg : DistIs S i g 1 := by
      refine ⟨hreach1, ?_⟩
      intro j hj hrj
      have hj0 : j = 0 := by omega
      subst hj0
      exact hne hrj
    constructor
    · intro hnr
      exact absurd hreach1 (hnr 1)
    · intro m hd
      have hm1 : m = 1 := DistIs_unique hd hdg
      subst hm1
      exact ⟨[g, i].reverse, hloop, rfl⟩
  · have hgL : g ∉ nbrsL i := fun h => hgN ((hLmem g).mp h)
    have hres := processNbrs_noGoal (i := i) (w := i) (g := g)
      (q := ([] : List Word)) (P := ([] : List (Word × Word))) hLnd hgL
    have hFeq : ((nbrsL i).filter fun n =>
        (plookup ([] : List (Word × Word)) n).isNone) = nbrsL i :=
      List.filter_eq_self.mpr fun a _ => rfl
    rw [hFeq] at hres
    rw [List.nil_append, List.append_nil] at hres
    have hinv := BfsInv_start hiS hne hLnd hLmem hgN
    have hμ : bfsMeasure S (nbrsL i) (((nbrsL i).map fun n => (n, i)).reverse) ≤
        S.card := by
      have hkeys : ((((nbrsL i).map fun n => (n, i)).reverse)).map Prod.fst =
          (nbrsL i).reverse := keys_revmap _ i
      rw [bfsMeasure, hkeys, List.toFinset_reverse]
      have hsub : (nbrsL i).toFinset ⊆ S := by
        intro x hx
        exact nbrs_subset_vocab S i ((hLmem x).mp (List.mem_toFinset.mp hx))
      rw [Finset.card_sdiff hsub]
      have hfc : (nbrsL i).toFinset.card = (nbrsL i).length :=
        List.toFinset_card_of_nodup hLnd
      have hcle := Finset.card_le_card hsub
      omega
    have hcor := bfsLoop_correct hn hne S.card hinv hμ
    constructor
    · intro hnr
      rw [bfsLoop_succ_inl S.card hiS hres]
      exact hcor.1 hnr
    · intro m hd
      obtain ⟨p, hp, hl⟩ := hcor.2 m hd
      refine ⟨p, ?_, hl⟩
      rw [bfsLoop_succ_inl S.card hiS hres]
      exact hp

theorem find_word_chain_found_connects {S : Finset Word} {nbrsL : Word → List Word}
    {i g : Word} {p : List Word} (hn : NbrLists S nbrsL)
    (h : find_word_chain i g S nbrsL = BfsResult.found p) : Connects S i g p := by
  rw [find_word_chain] at h
  by_cases hlen : i.length = g.length
  · rw [if_pos hlen] at h
    obtain ⟨hh, hl, hch⟩ :=
      bfsLoop_found_sound hn (S.card + 1) (fun e he => absurd he (List.not_mem_nil e)) h
    exact ⟨hch, hh, hl⟩
  · rw [if_neg hlen] at h
    cases h

/-- Claim C2: over a graph produced by `make_word_graph` with distinct
equal-length keys `initial` and `goal`, if `goal` is reachable from
`initial`, `find_word_chain` returns a path whose edge count equals the
shortest-path distance: the path connects `initial` to `goal` and no
connecting walk has fewer entries. -/
theorem find_word_chain_shortest_path (S : Finset Word) (nbrsL : Word → List Word)
    (initial goal : Word) (hn : NbrLists S nbrsL) (hne : initial ≠ goal)
    (hlen : initial.length = goal.length) (hi : initial ∈ S) (hg : goal ∈ S)
    (hreach : ∃ q, Connects S initial goal q) :
    ∃ p, find_word_chain initial goal S nbrsL = BfsResult.found p ∧
      Connects S initial goal p ∧
      ∀ q, Connects S initial goal q → p.length ≤ q.length := by
  obtain ⟨q0, hq0⟩ := hreach
  have hr : reachN S (q0.length - 1) initial goal :=
    walk_reachN hq0.1 hq0.2.1 hq0.2.2
  obtain ⟨m, hm, hd⟩ := exists_distIs hr
  obtain ⟨p, heq, hplen⟩ := (find_word_chain_correct hn hne hi hlen).2 m hd
  refine ⟨p, heq, find_word_chain_found_connects hn heq, ?_⟩
  intro q hq
  have hrq : reachN S (q.length - 1) initial goal := walk_reachN hq.1 hq.2.1 hq.2.2
  have hqpos : q ≠ [] := by
    intro h
    rw [h] at hq
    cases hq.2.1
  have hql : 1 ≤ q.length := List.length_pos.mpr hqpos
  by_contra hlt
  push_neg at hlt
  have hq1 : q.length - 1 < m := by omega
  exact hd.2 (q.length - 1) hq1 hrq

/-- Claim C3 (amended): over a graph produced by `make_word_graph`, a query
whose goal is not a key returns `None` without raising (the goal is simply
never reached); but a query whose initial word is not a key raises
`KeyError` on the very first loop iteration when the lengths match, instead
of returning `None`. -/
theorem find_word_chain_absent_key (S : Finset Word) (nbrsL : Word → List Word)
    (initial goal : Word) (hn : NbrLists S nbrsL) :
    (initial ∈ S → goal ∉ S →
      find_word_chain initial goal S nbrsL = BfsResult.noPath) ∧
    (initial ∉ S → initial.length = goal.length →
      find_word_chain initial goal S nbrsL = BfsResult.keyError) := by
  constructor
  · intro hi hg
    have hne : initial ≠ goal := fun h => hg (h ▸ hi)
    by_cases hlen : initial.length = goal.length
    · refine (find_word_chain_correct hn hne hi hlen).1 ?_
      intro n hr
      cases n with
      | zero => exact hne hr
      | succ n =>
        obtain ⟨u, _, hx⟩ := reachN_succ_back hr
        exact hg (nbrs_subset_vocab S u hx)
    · rw [find_word_chain, if_neg hlen]
  · intro hi hlen
    rw [find_word_chain, if_pos hlen]
    exact bfsLoop_succ_notmem nbrsL initial goal S.card [] [] hi

/-- Claim C5 (amended): for a key `W` of a graph produced by
`make_word_graph`, searching from `W` to itself returns the single-element
path `[W]` whenever `W` has at least one neighbor — BFS rediscovers the
start word as a neighbor of its first-processed neighbor and the goal test
fires — and returns `None` only when `W`'s neighbor set is empty. -/
theorem find_word_chain_same_word (S : Finset Word) (nbrsL : Word → List Word)
    (W : Word) (hn : NbrLists S nbrsL) (hW : W ∈ S) :
    find_word_chain W W S nbrsL =
      if nbrs S W = ∅ then BfsResult.noPath else BfsResult.found [W] := by
  rw [find_word_chain, if_pos rfl]
  have hLnd : (nbrsL W).Nodup := (hn W hW).1
  have hLmem : ∀ x, x ∈ nbrsL W ↔ x ∈ nbrs S W := hn.mem_iff hW
  have hWL : W ∉ nbrsL W := fun h => nbrs_irrefl S W ((hLmem W).mp h)
  have hres := processNbrs_noGoal (i := W) (w := W) (g := W) (q := ([] : List Word))
    (P := ([] : List (Word × Word))) hLnd hWL
  have hFeq : ((nbrsL W).filter fun n =>
      (plookup ([] : List (Word × Word)) n).isNone) = nbrsL W :=
    List.filter_eq_self.mpr fun a _ => rfl
  rw [hFeq, List.nil_append, List.append_nil] at hres
  rw [bfsLoop_succ_inl S.card hW hres]
  by_cases hempty : nbrs S W = ∅
  · rw [if_pos hempty]
    have hLnil : nbrsL W = [] := by
      rw [List.eq_nil_iff_forall_not_mem]
      intro x hx
      have := (hLmem x).mp hx
      rw [hempty] at this
      exact Finset.not_mem_empty x this
    rw [hLnil]
    exact bfsLoop_nil S nbrsL W W S.card _
  · rw [if_neg hempty]
    obtain ⟨w1, L', hL⟩ : ∃ w1 L', nbrsL W = w1 :: L' := by
      cases hLc : nbrsL W with
      | nil =>
        exfalso
        obtain ⟨x, hx⟩ := Finset.nonempty_iff_ne_empty.mpr hempty
        have := (hLmem x).mpr hx
        rw [hLc] at this
        exact absurd this (List.not_mem_nil x)
      | cons a t => exact ⟨a, t, rfl⟩
    have hw1n : w1 ∈ nbrs S W := (hLmem w1).mp (hL ▸ List.mem_cons_self w1 L')
    have hw1S : w1 ∈ S := nbrs_subset_vocab S W hw1n
    obtain ⟨f2, hf2⟩ : ∃ f2, S.card = f2 + 1 :=
      ⟨S.card - 1, by
        have : 0 < S.card := Finset.card_pos.mpr ⟨W, hW⟩
        omega⟩
    have hL1nd : (nbrsL w1).Nodup := (hn w1 hw1S).1
    have hL1mem : ∀ x, x ∈ nbrsL w1 ↔ x ∈ nbrs S w1 := hn.mem_iff hw1S
    have hWn1 : W ∈ nbrs S w1 := (nbrs_symm hW hw1S).mp hw1n
    have hWL1 : W ∈ nbrsL w1 := (hL1mem W).mpr hWn1
    have hWkey : plookup (((nbrsL W).map fun n => (n, W)).reverse) W = none := by
      rw [plookup_eq_none_iff, keys_revmap, List.mem_reverse]
      exact hWL
    rw [hL] at hWkey
    rw [hL, hf2]
    obtain ⟨F, hFnd, hFprops, hsome, _⟩ :=
      processNbrs_found (i := W) (q := L')
        (P := ((w1 :: L').map fun n => (n, W)).reverse) hL1nd hWL1 hWkey
    have hfin : chase ((W, w1) :: ((F.map fun n => (n, w1)).reverse ++
          ((w1 :: L').map fun n => (n, W)).reverse)) W
        ((((F.map fun n => (n, w1)).reverse ++
          ((w1 :: L').map fun n => (n, W)).reverse)).length + 2) W = some [W] := by
      simp [chase]
    have hres2 := hsome [W] hfin
    rw [bfsLoop_succ_inr f2 hw1S hres2]
    rfl

theorem find_word_chain_shortest_path_witness :
    NbrLists {['a'], ['b']}
      (fun w => if w = ['a'] then [['b']] else if w = ['b'] then [['a']] else []) ∧
    (['a'] : Word) ≠ ['b'] ∧
    (['a'] : Word).length = (['b'] : Word).length ∧
    (['a'] : Word) ∈ ({['a'], ['b']} : Finset Word) ∧
    (['b'] : Word) ∈ ({['a'], ['b']} : Finset Word) ∧
    (∃ q, Connects {['a'], ['b']} ['a'] ['b'] q) ∧
    (∃ p, find_word_chain ['a'] ['b'] {['a'], ['b']}
        (fun w => if w = ['a'] then [['b']] else if w = ['b'] then [['a']] else []) =
          BfsResult.found p ∧
      Connects {['a'], ['b']} ['a'] ['b'] p ∧
      ∀ q, Connects {['a'], ['b']} ['a'] ['b'] q → p.length ≤ q.length) := by
  refine ⟨?hn, by decide, by decide, by decide, by decide, ?hr, ?_⟩
  case hn => unfold NbrLists; decide
  case hr =>
    refine ⟨[['a'], ['b']], List.chain'_cons.mpr ⟨by decide, List.chain'_singleton _⟩,
      rfl, rfl⟩
  exact
    find_word_chain_shortest_path {['a'], ['b']}
      (fun w => if w = ['a'] then [['b']] else if w = ['b'] then [['a']] else [])
      ['a'] ['b'] (by unfold NbrLists; decide) (by decide) (by decide) (by decide)
      (by decide)
      ⟨[['a'], ['b']], List.chain'_cons.mpr ⟨by decide, List.chain'_singleton _⟩,
        rfl, rfl⟩

theorem find_word_chain_absent_key_witness :
    NbrLists {['a']} (fun _ => []) ∧
    (((['b'] : Word) ∈ ({['a']} : Finset Word) → (['a'] : Word) ∉ ({['a']} : Finset Word) →
        find_word_chain ['b'] ['a'] {['a']} (fun _ => []) = BfsResult.noPath) ∧
      ((['b'] : Word) ∉ ({['a']} : Finset Word) →
        (['b'] : Word).length = (['a'] : Word).length →
        find_word_chain ['b'] ['a'] {['a']} (fun _ => []) = BfsResult.keyError)) :=
  ⟨by unfold NbrLists; decide,
    find_word_chain_absent_key {['a']} (fun _ => []) ['b'] ['a']
      (by unfold NbrLists; decide)⟩

theorem find_word_chain_same_word_witness :
    NbrLists {['a'], ['b']}
      (fun w => if w = ['a'] then [['b']] else if w = ['b'] then [['a']] else []) ∧
    (['a'] : Word) ∈ ({['a'], ['b']} : Finset Word) ∧
    find_word_chain ['a'] ['a'] {['a'], ['b']}
      (fun w => if w = ['a'] then [['b']] else if w = ['b'] then [['a']] else []) =
      (if nbrs {['a'], ['b']} ['a'] = ∅ then BfsResult.noPath
        else BfsResult.found [['a']]) :=
  ⟨by unfold NbrLists; decide, by decide,
    find_word_chain_same_word {['a'], ['b']}
      (fun w => if w = ['a'] then [['b']] else if w = ['b'] then [['a']] else [])
      ['a'] (by unfold NbrLists; decide) (by decide)⟩
